import Mathlib

/-! Verification of the dynamic protobuf schema/codec subsystem of the
testforge repository: the identifier sanitizers (`fix_proto.py`,
`fix_proto_v2.py`) and the `ProtobufHandler` class
(`src/protocols/protobuf_handler.py`). -/

namespace TestForge

/-! Character classes.  `isWordChar` models Python's regex `\w` (and thereby
`\b`) and `isSpaceChar` models `\s`, both restricted to ASCII; the schema
identifiers rewritten by the two sanitizer scripts are pure ASCII. -/

def isWordChar (c : Char) : Bool := c.isAlphanum || c = '_'

def isSpaceChar (c : Char) : Bool :=
  c = ' ' || c = '\t' || c = '\n' || c = '\r' || c = '\x0b' || c = '\x0c'

/-- The lookahead `(?=\s*=)` shared by both rewrite patterns: the remaining
text must begin with whitespace followed by `=`. -/
def lookaheadEq : List Char → Bool
  | [] => false
  | c :: cs => if c = '=' then true else if isSpaceChar c then lookaheadEq cs else false

/-- One attempted match of `fix_proto.py`'s pattern `\b(IAB)(\d{2})(?=\s*=)`
at the head of the text (the `\b` test is done by the caller's scan state).
Returns the two captured digits and the unconsumed rest; the lookahead
consumes nothing. -/
def matchCat : List Char → Option (Char × Char × List Char)
  | c0 :: c1 :: c2 :: d1 :: d2 :: rest =>
    if c0 = 'I' ∧ c1 = 'A' ∧ c2 = 'B' ∧ d1.isDigit ∧ d2.isDigit ∧ lookaheadEq rest
    then some (d1, d2, rest) else none
  | _ => none

/-- The scanning loop of `re.sub` for `fix_proto.py`'s pattern: left to
right, leftmost non-overlapping matches, replacement `IAB_CAT_\2`.
`prevWord` records whether the previous character was a word character, so
`\b` holds exactly when `prevWord = false`.  One unit of fuel is spent per
emitted chunk and every chunk consumes at least one input character, so fuel
equal to the input length always suffices. -/
def subCat : Nat → Bool → List Char → List Char
  | 0, _, s => s
  | _ + 1, _, [] => []
  | fuel + 1, prevWord, c :: cs =>
    match (if prevWord then none else matchCat (c :: cs)) with
    | some (d1, d2, rest) =>
      'I' :: 'A' :: 'B' :: '_' :: 'C' :: 'A' :: 'T' :: '_' :: d1 :: d2 :: subCat fuel true rest
    | none => c :: subCat fuel (isWordChar c) cs

/-- Text transform of `fix_proto.fix_proto_enums`: the single whole-text
`re.sub` of pattern `\b(IAB)(\d{2})(?=\s*=)` with replacement `IAB_CAT_\2`
(file reading and writing abstracted away). -/
def fixProtoEnums (s : List Char) : List Char := subCat s.length false s

/-- One attempted match of `fix_proto_v2.py`'s pattern
`\b(IAB)(\d+)_(\d+)(?=\s*=)` at the head of the text.  The two `\d+` groups
are greedy; backtracking cannot produce any other match because a shortened
digit run is necessarily followed by another digit, which satisfies neither
the literal `_` nor the lookahead `\s*=`, so the maximal runs are the only
candidate. -/
def matchSub : List Char → Option (List Char × List Char × List Char)
  | c0 :: c1 :: c2 :: rest0 =>
    if c0 = 'I' ∧ c1 = 'A' ∧ c2 = 'B' then
      match rest0.dropWhile Char.isDigit with
      | '_' :: r2 =>
        if rest0.takeWhile Char.isDigit ≠ [] ∧ r2.takeWhile Char.isDigit ≠ [] ∧
            lookaheadEq (r2.dropWhile Char.isDigit)
        then some (rest0.takeWhile Char.isDigit, r2.takeWhile Char.isDigit,
          r2.dropWhile Char.isDigit)
        else none
      | _ => none
    else none
  | _ => none

/-- The scanning loop of `re.sub` for `fix_proto_v2.py`'s pattern, with
replacement `IAB_\2_SUB_\3`. -/
def subSub : Nat → Bool → List Char → List Char
  | 0, _, s => s
  | _ + 1, _, [] => []
  | fuel + 1, prevWord, c :: cs =>
    match (if prevWord then none else matchSub (c :: cs)) with
    | some (ds1, ds2, rest) =>
      'I' :: 'A' :: 'B' :: '_' ::
        (ds1 ++ '_' :: 'S' :: 'U' :: 'B' :: '_' :: (ds2 ++ subSub fuel true rest))
    | none => c :: subSub fuel (isWordChar c) cs

/-- One line of `fix_proto_v2.fix_enums_thoroughly`: the `re.sub` applied to
a single line from `readlines` (trailing newline included in the line). -/
def subSubLine (l : List Char) : List Char := subSub l.length false l

/-- Python's `readlines`: split text into lines, each keeping its trailing
newline; a final segment without a newline forms the last line. -/
def splitLinesKeep : List Char → List (List Char)
  | [] => []
  | c :: cs =>
    if c = '\n' then ['\n'] :: splitLinesKeep cs
    else
      match splitLinesKeep cs with
      | [] => [[c]]
      | l :: ls => (c :: l) :: ls

/-- Text transform of `fix_proto_v2.fix_enums_thoroughly`: the file is read
as lines, the `re.sub` of pattern `\b(IAB)(\d+)_(\d+)(?=\s*=)` with
replacement `IAB_\2_SUB_\3` is applied to each line, and the fixed lines are
written back, i.e. concatenated. -/
def fixEnumsThoroughly (s : List Char) : List Char :=
  ((splitLinesKeep s).map subSubLine).flatten

/-! Basic facts about the two matchers. -/

theorem matchCat_eq_some {s : List Char} {d1 d2 : Char} {rest : List Char}
    (h : matchCat s = some (d1, d2, rest)) :
    s = 'I' :: 'A' :: 'B' :: d1 :: d2 :: rest ∧ d1.isDigit ∧ d2.isDigit ∧
      lookaheadEq rest := by
  match s with
  | [] | [_] | [_, _] | [_, _, _] | [_, _, _, _] => simp [matchCat] at h
  | c0 :: c1 :: c2 :: e1 :: e2 :: r =>
    simp only [matchCat] at h
    split at h
    · rename_i hc
      obtain ⟨h1, h2, h3, h4, h5, h6⟩ := hc
      obtain ⟨rfl, rfl, rfl⟩ := Option.some.injEq .. ▸ h
      · exact ⟨by simp [h1, h2, h3], h4, h5, h6⟩
    · exact absurd h (by simp)

theorem matchCat_length {s : List Char} {d1 d2 : Char} {rest : List Char}
    (h : matchCat s = some (d1, d2, rest)) : s.length = rest.length + 5 := by
  obtain ⟨rfl, -⟩ := matchCat_eq_some h
  simp

theorem subCat_nil (f : Nat) (b : Bool) : subCat f b [] = [] := by
  cases f <;> rfl

theorem subCat_fuel {f g : Nat} {b : Bool} {s : List Char}
    (hf : s.length ≤ f) (hg : s.length ≤ g) : subCat f b s = subCat g b s := by
  induction f generalizing g b s with
  | zero =>
    have : s = [] := List.length_eq_zero.mp (Nat.le_zero.mp hf)
    subst this
    rw [subCat_nil, subCat_nil]
  | succ f ih =>
    match s with
    | [] => rw [subCat_nil, subCat_nil]
    | c :: cs =>
      match g with
      | 0 => exact absurd hg (by simp)
      | g + 1 =>
        simp only [subCat]
        cases hb : (if b then none else matchCat (c :: cs)) with
        | none =>
          have h1 : cs.length ≤ f := by simpa using hf
          have h2 : cs.length ≤ g := by simpa using hg
          rw [ih h1 h2]
        | some x =>
          obtain ⟨d1, d2, rest⟩ := x
          have hm : matchCat (c :: cs) = some (d1, d2, rest) := by
            cases b <;> simp_all
          have hlen : cs.length + 1 = rest.length + 5 := by
            simpa using matchCat_length hm
          have h1 : rest.length ≤ f := by simp at hf; omega
          have h2 : rest.length ≤ g := by simp at hg; omega
          simp only [List.cons.injEq, true_and]
          exact ih h1 h2

/-- Fuel-free view of one `re.sub` pass for `fix_proto.py`'s pattern. -/
def sCat (b : Bool) (s : List Char) : List Char := subCat s.length b s

theorem fixProtoEnums_eq (s : List Char) : fixProtoEnums s = sCat false s := rfl

theorem sCat_nil (b : Bool) : sCat b [] = [] := rfl

theorem sCat_match {c : Char} {cs : List Char} {d1 d2 : Char} {rest : List Char}
    (h : matchCat (c :: cs) = some (d1, d2, rest)) :
    sCat false (c :: cs) =
      'I' :: 'A' :: 'B' :: '_' :: 'C' :: 'A' :: 'T' :: '_' :: d1 :: d2 :: sCat true rest := by
  have hlen : cs.length + 1 = rest.length + 5 := by simpa using matchCat_length h
  show subCat (cs.length + 1) false (c :: cs) = _
  simp only [subCat, Bool.false_eq_true, if_false, h]
  have : subCat cs.length true rest = subCat rest.length true rest :=
    subCat_fuel (by omega) le_rfl
  rw [this]
  rfl

theorem sCat_pass {b : Bool} {c : Char} {cs : List Char}
    (h : b = true ∨ matchCat (c :: cs) = none) :
    sCat b (c :: cs) = c :: sCat (isWordChar c) cs := by
  show subCat (cs.length + 1) b (c :: cs) = _
  have hb : (if b then none else matchCat (c :: cs)) = none := by
    rcases h with rfl | h
    · rfl
    · cases b <;> simp [h]
  simp only [subCat, hb]
  rfl

theorem sCat_true (c : Char) (cs : List Char) :
    sCat true (c :: cs) = c :: sCat (isWordChar c) cs :=
  sCat_pass (Or.inl rfl)

/-! Shape lemmas: positions at which a match of `\b(IAB)(\d{2})(?=\s*=)`
is impossible. -/

theorem matchCat_none_head {c : Char} {cs : List Char} (hc : c ≠ 'I') :
    matchCat (c :: cs) = none := by
  match cs with
  | [] | [_] | [_, _] | [_, _, _] => rfl
  | c1 :: c2 :: e1 :: e2 :: r => simp [matchCat, hc]

theorem matchCat_none_two {c1 : Char} {t : List Char} (hc : c1 ≠ 'A') :
    matchCat ('I' :: c1 :: t) = none := by
  match t with
  | [] | [_] | [_, _] => rfl
  | c2 :: e1 :: e2 :: r => simp [matchCat, hc]

theorem matchCat_none_three {c2 : Char} {t : List Char} (hc : c2 ≠ 'B') :
    matchCat ('I' :: 'A' :: c2 :: t) = none := by
  match t with
  | [] | [_] => rfl
  | e1 :: e2 :: r => simp [matchCat, hc]

theorem matchCat_none_four {d1 : Char} {t : List Char} (hd : ¬ d1.isDigit) :
    matchCat ('I' :: 'A' :: 'B' :: d1 :: t) = none := by
  match t with
  | [] => rfl
  | e2 :: r => simp [matchCat, hd]

theorem matchCat_none_five {d1 d2 : Char} {t : List Char} (hd : ¬ d2.isDigit) :
    matchCat ('I' :: 'A' :: 'B' :: d1 :: d2 :: t) = none := by
  simp [matchCat, hd]

theorem matchCat_none_look {d1 d2 : Char} {t : List Char} (hl : lookaheadEq t = false) :
    matchCat ('I' :: 'A' :: 'B' :: d1 :: d2 :: t) = none := by
  simp [matchCat, hl]

/-- One sanitizer pass does not change whether the text satisfies the
lookahead `\s*=`: the first non-space character is preserved (a replacement
starts with `I`, which is neither space nor `=`, and begins exactly where an
`I` stood). -/
theorem lookaheadEq_sCat_aux : ∀ n : Nat, ∀ s : List Char, ∀ b : Bool, s.length ≤ n →
    lookaheadEq (sCat b s) = lookaheadEq s := by
  intro n
  induction n with
  | zero =>
    intro s b h
    have hs : s = [] := List.length_eq_zero.mp (Nat.le_zero.mp h)
    subst hs; rfl
  | succ n ih =>
    intro s b h
    match s with
    | [] => rfl
    | c :: cs =>
      have hcs : cs.length ≤ n := by simpa using h
      by_cases hpass : b = true ∨ matchCat (c :: cs) = none
      · rw [sCat_pass hpass]
        by_cases hc : c = '='
        · simp [lookaheadEq, hc]
        · by_cases hsp : isSpaceChar c
          · simpa [lookaheadEq, hc, hsp] using ih cs (isWordChar c) hcs
          · simp [lookaheadEq, hc, hsp]
      · push_neg at hpass
        obtain ⟨hb, hm⟩ := hpass
        have hb' : b = false := by cases b <;> simp_all
        subst hb'
        obtain ⟨⟨d1, d2, rest⟩, hms⟩ := Option.ne_none_iff_exists'.mp hm
        obtain ⟨hshape, hd1, hd2, hla⟩ := matchCat_eq_some hms
        have hc : c = 'I' := by injection hshape
        subst hc
        rw [sCat_match hms]
        have hIl : ∀ t : List Char, lookaheadEq ('I' :: t) = false := fun t => rfl
        rw [hIl, hIl]

theorem lookaheadEq_sCat (b : Bool) (s : List Char) :
    lookaheadEq (sCat b s) = lookaheadEq s :=
  lookaheadEq_sCat_aux s.length s b le_rfl

/-- Scanning an already-rewritten `I` position cannot produce a fresh match:
if `IAB…` did not match, the sanitized tail still does not complete a
match, because the characters inspected by the pattern pass through the
scan unchanged and the lookahead status is preserved. -/
theorem matchCat_sCat_none {cs : List Char}
    (h : matchCat ('I' :: cs) = none) : matchCat ('I' :: sCat true cs) = none := by
  match cs with
  | [] => rfl
  | c1 :: cs1 =>
    rw [sCat_true]
    by_cases h1 : c1 = 'A'
    case neg => exact matchCat_none_two h1
    subst h1
    rw [show isWordChar 'A' = true from rfl]
    match cs1 with
    | [] => rw [sCat_nil]; rfl
    | c2 :: cs2 =>
      rw [sCat_true]
      by_cases h2 : c2 = 'B'
      case neg => exact matchCat_none_three h2
      subst h2
      rw [show isWordChar 'B' = true from rfl]
      match cs2 with
      | [] => rw [sCat_nil]; rfl
      | d1 :: cs3 =>
        rw [sCat_true]
        by_cases h3 : d1.isDigit
        case neg => exact matchCat_none_four h3
        rw [show isWordChar d1 = true from by simp [isWordChar, Char.isAlphanum, h3]]
        match cs3 with
        | [] => rw [sCat_nil]; rfl
        | d2 :: cs4 =>
          rw [sCat_true]
          by_cases h4 : d2.isDigit
          case neg => exact matchCat_none_five h4
          rw [show isWordChar d2 = true from by simp [isWordChar, Char.isAlphanum, h4]]
          have hl : lookaheadEq cs4 = false := by
            by_contra hc
            rw [Bool.not_eq_false] at hc
            simp [matchCat, h3, h4, hc] at h
          exact matchCat_none_look (by rw [lookaheadEq_sCat]; exact hl)

/-- One-pass outputs of the `fix_proto.py` rewrite are fixed points of the
rewrite: core of the idempotence claim. -/
theorem sCat_idem_aux : ∀ n : Nat, ∀ s : List Char, ∀ b : Bool, s.length ≤ n →
    sCat b (sCat b s) = sCat b s := by
  intro n
  induction n with
  | zero =>
    intro s b h
    have hs : s = [] := List.length_eq_zero.mp (Nat.le_zero.mp h)
    subst hs; rfl
  | succ n ih =>
    intro s b h
    match s with
    | [] => rfl
    | c :: cs =>
      have hcs : cs.length ≤ n := by simpa using h
      cases b with
      | true =>
        rw [sCat_true, sCat_true]
        rw [ih cs (isWordChar c) hcs]
      | false =>
        cases hm : matchCat (c :: cs) with
        | none =>
          rw [sCat_pass (Or.inr hm)]
          have hnone : matchCat (c :: sCat (isWordChar c) cs) = none := by
            by_cases hc : c = 'I'
            · subst hc
              exact matchCat_sCat_none hm
            · exact matchCat_none_head hc
          rw [sCat_pass (Or.inr hnone)]
          rw [ih cs (isWordChar c) hcs]
        | some x =>
          obtain ⟨d1, d2, rest⟩ := x
          obtain ⟨hshape, hd1, hd2, hla⟩ := matchCat_eq_some hm
          have hrest : rest.length ≤ n := by
            have := congrArg List.length hshape
            simp at this
            omega
          rw [sCat_match hm]
          have hn : matchCat ('I' :: 'A' :: 'B' :: '_' :: 'C' :: 'A' :: 'T' :: '_' ::
              d1 :: d2 :: sCat true rest) = none :=
            matchCat_none_four (by decide)
          rw [sCat_pass (Or.inr hn)]
          simp only [sCat_true, show isWordChar 'I' = true from rfl,
            show isWordChar 'A' = true from rfl, show isWordChar 'B' = true from rfl,
            show isWordChar '_' = true from rfl, show isWordChar 'C' = true from rfl,
            show isWordChar 'T' = true from rfl,
            show isWordChar d1 = true from by simp [isWordChar, Char.isAlphanum, hd1],
            show isWordChar d2 = true from by simp [isWordChar, Char.isAlphanum, hd2]]
          rw [ih rest true hrest]

theorem sCat_idem (b : Bool) (s : List Char) : sCat b (sCat b s) = sCat b s :=
  sCat_idem_aux s.length s b le_rfl

/-! Generic helpers for maximal-run reasoning (the greedy `\d+` groups of
`fix_proto_v2.py`). -/

theorem takeWhile_append_all {α : Type} {p : α → Bool} {l : List α}
    (hl : ∀ c ∈ l, p c) (u : List α) :
    (l ++ u).takeWhile p = l ++ u.takeWhile p := by
  induction l with
  | nil => simp
  | cons c t ih =>
    have hc : p c = true := hl c (by simp)
    have ht := ih (fun d hd => hl d (by simp [hd]))
    simp [List.takeWhile_cons, hc, ht]

theorem dropWhile_append_all {α : Type} {p : α → Bool} {l : List α}
    (hl : ∀ c ∈ l, p c) (u : List α) :
    (l ++ u).dropWhile p = u.dropWhile p := by
  induction l with
  | nil => simp
  | cons c t ih =>
    simp only [List.cons_append, List.dropWhile_cons, hl c (by simp)]
    exact ih (fun d hd => hl d (by simp [hd]))

theorem dropWhile_head_not {α : Type} {p : α → Bool} {l : List α} {x : α} {t : List α}
    (h : l.dropWhile p = x :: t) : p x = false := by
  induction l with
  | nil => simp at h
  | cons c cs ih =>
    rw [List.dropWhile_cons] at h
    by_cases hc : p c
    · simp only [hc, if_true] at h
      exact ih h
    · simp only [hc, if_false] at h
      obtain ⟨rfl, -⟩ := List.cons.injEq .. ▸ h
      · exact Bool.not_eq_true _ ▸ hc

/-! Facts about the `fix_proto_v2.py` matcher. -/

theorem matchSub_eq_some {s ds1 ds2 rest : List Char}
    (h : matchSub s = some (ds1, ds2, rest)) :
    s = 'I' :: 'A' :: 'B' :: (ds1 ++ '_' :: (ds2 ++ rest)) ∧ ds1 ≠ [] ∧ ds2 ≠ [] ∧
      (∀ c ∈ ds1, c.isDigit) ∧ (∀ c ∈ ds2, c.isDigit) ∧ lookaheadEq rest := by
  match s with
  | [] | [_] | [_, _] => simp [matchSub] at h
  | c0 :: c1 :: c2 :: rest0 =>
    simp only [matchSub] at h
    split at h
    · rename_i hI
      obtain ⟨rfl, rfl, rfl⟩ := hI
      split at h
      · rename_i r2 heq
        split at h
        · rename_i hcond
          obtain ⟨hne1, hne2, hla⟩ := hcond
          simp only [Option.some.injEq, Prod.mk.injEq] at h
          obtain ⟨rfl, rfl, rfl⟩ := h
          refine ⟨?_, hne1, hne2, fun c hc => List.mem_takeWhile_imp hc,
            fun c hc => List.mem_takeWhile_imp hc, hla⟩
          conv_lhs => rw [← List.takeWhile_append_dropWhile (p := Char.isDigit) (l := rest0),
            heq, ← List.takeWhile_append_dropWhile (p := Char.isDigit) (l := r2)]
        · exact absurd h (by simp)
      · exact absurd h (by simp)
    · exact absurd h (by simp)

theorem matchSub_length {s ds1 ds2 rest : List Char}
    (h : matchSub s = some (ds1, ds2, rest)) : rest.length + 6 ≤ s.length := by
  obtain ⟨rfl, h1, h2, -, -, -⟩ := matchSub_eq_some h
  have g1 := List.length_pos.mpr h1
  have g2 := List.length_pos.mpr h2
  simp only [List.length_cons, List.length_append]
  omega

theorem subSub_nil (f : Nat) (b : Bool) : subSub f b [] = [] := by
  cases f <;> rfl

theorem subSub_fuel {f g : Nat} {b : Bool} {s : List Char}
    (hf : s.length ≤ f) (hg : s.length ≤ g) : subSub f b s = subSub g b s := by
  induction f generalizing g b s with
  | zero =>
    have : s = [] := List.length_eq_zero.mp (Nat.le_zero.mp hf)
    subst this
    rw [subSub_nil, subSub_nil]
  | succ f ih =>
    match s with
    | [] => rw [subSub_nil, subSub_nil]
    | c :: cs =>
      match g with
      | 0 => exact absurd hg (by simp)
      | g + 1 =>
        simp only [subSub]
        cases hb : (if b then none else matchSub (c :: cs)) with
        | none =>
          have h1 : cs.length ≤ f := by simpa using hf
          have h2 : cs.length ≤ g := by simpa using hg
          rw [ih h1 h2]
        | some x =>
          obtain ⟨ds1, ds2, rest⟩ := x
          have hm : matchSub (c :: cs) = some (ds1, ds2, rest) := by
            cases b <;> simp_all
          have hlen : rest.length + 6 ≤ cs.length + 1 := by
            simpa using matchSub_length hm
          have h1 : rest.length ≤ f := by simp at hf; omega
          have h2 : rest.length ≤ g := by simp at hg; omega
          simp only [ih (b := true) h1 h2]

/-- Fuel-free view of one `re.sub` pass for `fix_proto_v2.py`'s pattern. -/
def sSub (b : Bool) (s : List Char) : List Char := subSub s.length b s

theorem subSubLine_eq (l : List Char) : subSubLine l = sSub false l := rfl

theorem sSub_nil (b : Bool) : sSub b [] = [] := rfl

theorem sSub_match {c : Char} {cs ds1 ds2 rest : List Char}
    (h : matchSub (c :: cs) = some (ds1, ds2, rest)) :
    sSub false (c :: cs) =
      'I' :: 'A' :: 'B' :: '_' ::
        (ds1 ++ '_' :: 'S' :: 'U' :: 'B' :: '_' :: (ds2 ++ sSub true rest)) := by
  have hlen : rest.length + 6 ≤ cs.length + 1 := by simpa using matchSub_length h
  show subSub (cs.length + 1) false (c :: cs) = _
  simp only [subSub, Bool.false_eq_true, if_false, h]
  rw [subSub_fuel (f := cs.length) (g := rest.length) (by omega) le_rfl]
  rfl

theorem sSub_pass {b : Bool} {c : Char} {cs : List Char}
    (h : b = true ∨ matchSub (c :: cs) = none) :
    sSub b (c :: cs) = c :: sSub (isWordChar c) cs := by
  show subSub (cs.length + 1) b (c :: cs) = _
  have hb : (if b then none else matchSub (c :: cs)) = none := by
    rcases h with rfl | h
    · rfl
    · cases b <;> simp [h]
  simp only [subSub, hb]
  rfl

theorem sSub_true (c : Char) (cs : List Char) :
    sSub true (c :: cs) = c :: sSub (isWordChar c) cs :=
  sSub_pass (Or.inl rfl)

theorem sSub_append_words : ∀ l u : List Char, (∀ c ∈ l, isWordChar c = true) →
    sSub true (l ++ u) = l ++ sSub true u := by
  intro l
  induction l with
  | nil => simp
  | cons c t ih =>
    intro u hw
    rw [List.cons_append, sSub_true, hw c (by simp)]
    rw [ih u (fun d hd => hw d (by simp [hd]))]
    simp

theorem matchSub_cons3 (rest0 : List Char) :
    matchSub ('I' :: 'A' :: 'B' :: rest0) =
      (match rest0.dropWhile Char.isDigit with
      | '_' :: r2 =>
        if rest0.takeWhile Char.isDigit ≠ [] ∧ r2.takeWhile Char.isDigit ≠ [] ∧
            lookaheadEq (r2.dropWhile Char.isDigit)
        then some (rest0.takeWhile Char.isDigit, r2.takeWhile Char.isDigit,
          r2.dropWhile Char.isDigit)
        else none
      | _ => none) := by
  simp [matchSub]

theorem matchSub_none_head {c : Char} {cs : List Char} (hc : c ≠ 'I') :
    matchSub (c :: cs) = none := by
  match cs with
  | [] | [_] => rfl
  | c1 :: c2 :: t => simp [matchSub, hc]

theorem matchSub_none_two {c1 : Char} {t : List Char} (hc : c1 ≠ 'A') :
    matchSub ('I' :: c1 :: t) = none := by
  match t with
  | [] => rfl
  | c2 :: t' => simp [matchSub, hc]

theorem matchSub_none_three {c2 : Char} {t : List Char} (hc : c2 ≠ 'B') :
    matchSub ('I' :: 'A' :: c2 :: t) = none := by
  simp [matchSub, hc]

theorem matchSub_none_underscore (t : List Char) :
    matchSub ('I' :: 'A' :: 'B' :: '_' :: t) = none := by
  rw [matchSub_cons3]
  simp [List.dropWhile_cons, List.takeWhile_cons, show Char.isDigit '_' = false from rfl]

theorem lookaheadEq_sSub_aux : ∀ n : Nat, ∀ s : List Char, ∀ b : Bool, s.length ≤ n →
    lookaheadEq (sSub b s) = lookaheadEq s := by
  intro n
  induction n with
  | zero =>
    intro s b h
    have hs : s = [] := List.length_eq_zero.mp (Nat.le_zero.mp h)
    subst hs; rfl
  | succ n ih =>
    intro s b h
    match s with
    | [] => rfl
    | c :: cs =>
      have hcs : cs.length ≤ n := by simpa using h
      by_cases hpass : b = true ∨ matchSub (c :: cs) = none
      · rw [sSub_pass hpass]
        by_cases hc : c = '='
        · simp [lookaheadEq, hc]
        · by_cases hsp : isSpaceChar c
          · simpa [lookaheadEq, hc, hsp] using ih cs (isWordChar c) hcs
          · simp [lookaheadEq, hc, hsp]
      · push_neg at hpass
        obtain ⟨hb, hm⟩ := hpass
        have hb' : b = false := by cases b <;> simp_all
        subst hb'
        obtain ⟨⟨ds1, ds2, rest⟩, hms⟩ := Option.ne_none_iff_exists'.mp hm
        obtain ⟨hshape, -, -, -, -, -⟩ := matchSub_eq_some hms
        have hc : c = 'I' := by injection hshape
        subst hc
        rw [sSub_match hms]
        have hIl : ∀ t : List Char, lookaheadEq ('I' :: t) = false := fun t => rfl
        rw [hIl, hIl]

theorem lookaheadEq_sSub (b : Bool) (s : List Char) :
    lookaheadEq (sSub b s) = lookaheadEq s :=
  lookaheadEq_sSub_aux s.length s b le_rfl

/-- Digit characters are word characters. -/
theorem isWordChar_of_digit {c : Char} (h : c.isDigit) : isWordChar c = true := by
  simp [isWordChar, Char.isAlphanum, h]

/-- If the takeWhile-digit run of `l` is empty, so is that of its sanitized
form. -/
theorem takeWhile_digit_sSub_nil {l : List Char}
    (h : l.takeWhile Char.isDigit = []) :
    (sSub true l).takeWhile Char.isDigit = [] := by
  match l with
  | [] => rfl
  | z :: r =>
    rw [List.takeWhile_cons] at h
    by_cases hz : Char.isDigit z
    · simp [hz] at h
    · rw [sSub_true, List.takeWhile_cons]
      simp [hz]

/-- Scanning an already-rewritten `I` position cannot produce a fresh
`fix_proto_v2.py` match. -/
theorem matchSub_sSub_none {cs : List Char}
    (h : matchSub ('I' :: cs) = none) : matchSub ('I' :: sSub true cs) = none := by
  match cs with
  | [] => rfl
  | c1 :: cs1 =>
    rw [sSub_true]
    by_cases h1 : c1 = 'A'
    case neg => exact matchSub_none_two h1
    subst h1
    rw [show isWordChar 'A' = true from rfl]
    match cs1 with
    | [] => rw [sSub_nil]; rfl
    | c2 :: cs2 =>
      rw [sSub_true]
      by_cases h2 : c2 = 'B'
      case neg => exact matchSub_none_three h2
      subst h2
      rw [show isWordChar 'B' = true from rfl]
      have hds : ∀ c ∈ cs2.takeWhile Char.isDigit, Char.isDigit c :=
        fun c hc => List.mem_takeWhile_imp hc
      have hwds : ∀ c ∈ cs2.takeWhile Char.isDigit, isWordChar c = true :=
        fun c hc => isWordChar_of_digit (hds c hc)
      have hsplit : sSub true cs2 =
          cs2.takeWhile Char.isDigit ++ sSub true (cs2.dropWhile Char.isDigit) := by
        conv_lhs => rw [← List.takeWhile_append_dropWhile (p := Char.isDigit) (l := cs2)]
        exact sSub_append_words _ _ hwds
      rw [hsplit]
      cases hr : cs2.dropWhile Char.isDigit with
      | nil =>
        rw [sSub_nil, matchSub_cons3]
        have hall : (cs2.takeWhile Char.isDigit ++ ([] : List Char)).dropWhile
            Char.isDigit = [] := by
          simpa using dropWhile_append_all hds []
        rw [hall]
      | cons x r1 =>
        have hx : Char.isDigit x = false := dropWhile_head_not hr
        rw [sSub_true, matchSub_cons3]
        have hdw : (cs2.takeWhile Char.isDigit ++ x :: sSub (isWordChar x) r1).dropWhile
            Char.isDigit = x :: sSub (isWordChar x) r1 := by
          rw [dropWhile_append_all hds, List.dropWhile_cons, hx]; simp
        have htw : (cs2.takeWhile Char.isDigit ++ x :: sSub (isWordChar x) r1).takeWhile
            Char.isDigit = cs2.takeWhile Char.isDigit := by
          rw [takeWhile_append_all hds, List.takeWhile_cons, hx]; simp
        rw [hdw]
        by_cases hx_ : x = '_'
        case neg =>
          split
          · rename_i r2 heq
            exact absurd ((List.cons.injEq .. ▸ heq).1) hx_
          · rfl
        subst hx_
        rw [show isWordChar '_' = true from rfl] at htw ⊢
        -- the match takes its first branch with r2 := sSub true r1
        rw [matchSub_cons3, hr] at h
        simp only [htw]
        rw [if_neg]
        intro hcond
        obtain ⟨hA, hB, hC⟩ := hcond
        -- analyze the digit run of r1
        have hes : ∀ c ∈ r1.takeWhile Char.isDigit, Char.isDigit c :=
          fun c hc => List.mem_takeWhile_imp hc
        have hwes : ∀ c ∈ r1.takeWhile Char.isDigit, isWordChar c = true :=
          fun c hc => isWordChar_of_digit (hes c hc)
        have hsplit2 : sSub true r1 =
            r1.takeWhile Char.isDigit ++ sSub true (r1.dropWhile Char.isDigit) := by
          conv_lhs => rw [← List.takeWhile_append_dropWhile (p := Char.isDigit) (l := r1)]
          exact sSub_append_words _ _ hwes
        by_cases hesnil : r1.takeWhile Char.isDigit = []
        · exact hB (takeWhile_digit_sSub_nil hesnil)
        · -- the sanitized digit run of r1 is still its maximal run
          cases hq : r1.dropWhile Char.isDigit with
          | nil =>
            have hr1 : sSub true r1 = r1.takeWhile Char.isDigit := by
              rw [hsplit2, hq, sSub_nil, List.append_nil]
            rw [hr1] at hC
            have : (r1.takeWhile Char.isDigit).dropWhile Char.isDigit = [] := by
              simpa using dropWhile_append_all hes []
            rw [this] at hC
            exact absurd hC (by simp [lookaheadEq])
          | cons y q1 =>
            have hy : Char.isDigit y = false := dropWhile_head_not hq
            rw [hsplit2, hq, sSub_true] at hC
            have hdw2 : (r1.takeWhile Char.isDigit ++ y :: sSub (isWordChar y) q1).dropWhile
                Char.isDigit = y :: sSub (isWordChar y) q1 := by
              rw [dropWhile_append_all hes, List.dropWhile_cons, hy]; simp
            rw [hdw2] at hC
            rw [← sSub_true] at hC
            rw [lookaheadEq_sSub] at hC
            -- the original lookahead was false, since the original match failed
            have horig : ¬ (cs2.takeWhile Char.isDigit ≠ [] ∧
                r1.takeWhile Char.isDigit ≠ [] ∧
                lookaheadEq (r1.dropWhile Char.isDigit)) := by
              intro hP
              simp only [if_pos hP] at h
              simp at h
            rw [hq] at horig
            exact horig ⟨hA, hesnil, hC⟩

/-- One-pass outputs of the `fix_proto_v2.py` rewrite are fixed points of
the rewrite: core of the idempotence claim. -/
theorem sSub_idem_aux : ∀ n : Nat, ∀ s : List Char, ∀ b : Bool, s.length ≤ n →
    sSub b (sSub b s) = sSub b s := by
  intro n
  induction n with
  | zero =>
    intro s b h
    have hs : s = [] := List.length_eq_zero.mp (Nat.le_zero.mp h)
    subst hs; rfl
  | succ n ih =>
    intro s b h
    match s with
    | [] => rfl
    | c :: cs =>
      have hcs : cs.length ≤ n := by simpa using h
      cases b with
      | true =>
        rw [sSub_true, sSub_true]
        rw [ih cs (isWordChar c) hcs]
      | false =>
        cases hm : matchSub (c :: cs) with
        | none =>
          rw [sSub_pass (Or.inr hm)]
          have hnone : matchSub (c :: sSub (isWordChar c) cs) = none := by
            by_cases hc : c = 'I'
            · subst hc
              exact matchSub_sSub_none hm
            · exact matchSub_none_head hc
          rw [sSub_pass (Or.inr hnone)]
          rw [ih cs (isWordChar c) hcs]
        | some x =>
          obtain ⟨ds1, ds2, rest⟩ := x
          obtain ⟨hshape, hne1, hne2, hd1, hd2, hla⟩ := matchSub_eq_some hm
          have hrest : rest.length ≤ n := by
            have := matchSub_length hm
            simp at this
            omega
          rw [sSub_match hm]
          have hn := matchSub_none_underscore
            (ds1 ++ '_' :: 'S' :: 'U' :: 'B' :: '_' :: (ds2 ++ sSub true rest))
          rw [sSub_pass (Or.inr hn)]
          rw [show isWordChar 'I' = true from rfl]
          have hl : ∀ e ∈ ('A' :: 'B' :: '_' :: ds1) ++
              ('_' :: 'S' :: 'U' :: 'B' :: '_' :: ds2), isWordChar e = true := by
            intro e he
            simp only [List.mem_append, List.mem_cons] at he
            rcases he with (rfl | rfl | rfl | h1) | (rfl | rfl | rfl | rfl | rfl | h2)
            · rfl
            · rfl
            · rfl
            · exact isWordChar_of_digit (hd1 e h1)
            · rfl
            · rfl
            · rfl
            · rfl
            · rfl
            · exact isWordChar_of_digit (hd2 e h2)
          have harr : ('A' :: 'B' :: '_' ::
              (ds1 ++ '_' :: 'S' :: 'U' :: 'B' :: '_' :: (ds2 ++ sSub true rest))) =
              (('A' :: 'B' :: '_' :: ds1) ++ ('_' :: 'S' :: 'U' :: 'B' :: '_' :: ds2)) ++
                sSub true rest := by
            simp
          rw [harr, sSub_append_words _ _ hl]
          rw [ih rest true hrest]

theorem sSub_idem (b : Bool) (s : List Char) : sSub b (sSub b s) = sSub b s :=
  sSub_idem_aux s.length s b le_rfl

theorem subSubLine_idem (l : List Char) : subSubLine (subSubLine l) = subSubLine l := by
  rw [subSubLine_eq, subSubLine_eq]
  exact sSub_idem false l

/-! Line structure: what `readlines` produces and `writelines` consumes.
Needed because `fix_enums_thoroughly` applies its rewrite per line, and the
second application re-reads the concatenated output. -/

/-- Exactly the line decompositions `readlines` can yield: every line but
possibly the last ends in a newline and contains no interior newline; a
final newline-free nonempty segment forms the last line. -/
inductive LineList : List (List Char) → Prop
  | nil : LineList []
  | last {l : List Char} (hne : l ≠ []) (hnl : '\n' ∉ l) : LineList [l]
  | cons {l' : List Char} {ls : List (List Char)} (hnl : '\n' ∉ l')
      (h : LineList ls) : LineList ((l' ++ ['\n']) :: ls)

theorem splitLinesKeep_cons (c : Char) (cs : List Char) :
    splitLinesKeep (c :: cs) =
      if c = '\n' then ['\n'] :: splitLinesKeep cs
      else
        match splitLinesKeep cs with
        | [] => [[c]]
        | l :: ls => (c :: l) :: ls := rfl

theorem splitNoNl : ∀ l : List Char, l ≠ [] → '\n' ∉ l → splitLinesKeep l = [l] := by
  intro l
  induction l with
  | nil => intro h; exact absurd rfl h
  | cons c cs ih =>
    intro _ hnl
    rw [List.mem_cons] at hnl
    push_neg at hnl
    obtain ⟨hc, hcs⟩ := hnl
    match cs with
    | [] => simp [splitLinesKeep, Ne.symm hc]
    | c2 :: cs2 =>
      have hrec := ih (by simp) hcs
      rw [splitLinesKeep_cons, if_neg (Ne.symm hc), hrec]

theorem splitLinesKeep_full : ∀ (l' t : List Char), '\n' ∉ l' →
    splitLinesKeep (l' ++ '\n' :: t) = (l' ++ ['\n']) :: splitLinesKeep t := by
  intro l'
  induction l' with
  | nil => intro t _; simp [splitLinesKeep]
  | cons c l'' ih =>
    intro t hnl
    rw [List.mem_cons] at hnl
    push_neg at hnl
    obtain ⟨hc, hl''⟩ := hnl
    rw [List.cons_append]
    rw [splitLinesKeep_cons, if_neg (Ne.symm hc)]
    rw [ih t hl'']
    simp

theorem splitLinesKeep_flatten : ∀ ls : List (List Char), LineList ls →
    splitLinesKeep ls.flatten = ls := by
  intro ls h
  induction h with
  | nil => rfl
  | @last l hne hnl =>
    simpa using splitNoNl l hne hnl
  | @cons l' ls hnl h ih =>
    have harr : ((l' ++ ['\n']) :: ls).flatten = l' ++ '\n' :: ls.flatten := by
      simp
    rw [harr, splitLinesKeep_full l' _ hnl, ih]

theorem lineList_split : ∀ s : List Char, LineList (splitLinesKeep s) := by
  intro s
  induction s with
  | nil => exact LineList.nil
  | cons c cs ih =>
    by_cases hc : c = '\n'
    · subst hc
      rw [splitLinesKeep_cons, if_pos rfl]
      exact LineList.cons (List.not_mem_nil '\n') ih
    · rw [splitLinesKeep_cons, if_neg hc]
      cases hsp : splitLinesKeep cs with
      | nil =>
        have hn : '\n' ∉ [c] := by
          rw [List.mem_singleton]
          exact fun h => hc h.symm
        exact LineList.last (by simp) hn
      | cons l ls =>
        rw [hsp] at ih
        cases ih with
        | last hne hnl =>
          have hn : '\n' ∉ c :: l := by
            rw [List.mem_cons]
            push_neg
            exact ⟨fun h => hc h.symm, hnl⟩
          show LineList [c :: l]
          exact LineList.last (by simp) hn
        | @cons l' ls' hnl h =>
          have hn : '\n' ∉ c :: l' := by
            rw [List.mem_cons]
            push_neg
            exact ⟨fun h => hc h.symm, hnl⟩
          show LineList ((c :: (l' ++ ['\n'])) :: ls)
          have harr : (c :: (l' ++ ['\n'])) = (c :: l') ++ ['\n'] := by simp
          rw [harr]
          exact LineList.cons hn h

/-- `lookaheadEq` only holds on nonempty text. -/
theorem lookaheadEq_ne_nil {t : List Char} (h : lookaheadEq t = true) : t ≠ [] := by
  cases t with
  | nil => simp [lookaheadEq] at h
  | cons x xs => exact List.cons_ne_nil x xs

/-- The rewrite preserves newline count: replacements neither consume nor
produce newline characters. -/
theorem count_nl_sSub_aux : ∀ n : Nat, ∀ s : List Char, ∀ b : Bool, s.length ≤ n →
    (sSub b s).count '\n' = s.count '\n' := by
  intro n
  induction n with
  | zero =>
    intro s b h
    have hs : s = [] := List.length_eq_zero.mp (Nat.le_zero.mp h)
    subst hs; rfl
  | succ n ih =>
    intro s b h
    match s with
    | [] => rfl
    | c :: cs =>
      have hcs : cs.length ≤ n := by simpa using h
      by_cases hpass : b = true ∨ matchSub (c :: cs) = none
      · rw [sSub_pass hpass]
        simp [List.count_cons, ih cs (isWordChar c) hcs]
      · push_neg at hpass
        obtain ⟨hb, hm⟩ := hpass
        have hb' : b = false := by cases b <;> simp_all
        subst hb'
        obtain ⟨⟨ds1, ds2, rest⟩, hms⟩ := Option.ne_none_iff_exists'.mp hm
        obtain ⟨hshape, -, -, -, -, -⟩ := matchSub_eq_some hms
        have hrest : rest.length ≤ n := by
          have := matchSub_length hms
          simp at this ⊢
          omega
        rw [sSub_match hms, hshape]
        simp [List.count_cons, List.count_append, ih rest true hrest]

theorem count_nl_sSub (b : Bool) (s : List Char) :
    (sSub b s).count '\n' = s.count '\n' :=
  count_nl_sSub_aux s.length s b le_rfl

/-- The rewrite is nonempty-preserving and keeps the final character: every
match is followed by nonempty unconsumed text (the lookahead requires an
`=`), so the last character of the input is always emitted verbatim. -/
theorem sSub_getLast_aux : ∀ n : Nat, ∀ s : List Char, ∀ b : Bool, s.length ≤ n →
    s ≠ [] → sSub b s ≠ [] ∧ (sSub b s).getLast? = s.getLast? := by
  intro n
  induction n with
  | zero =>
    intro s b h hne
    exact absurd (List.length_eq_zero.mp (Nat.le_zero.mp h)) hne
  | succ n ih =>
    intro s b h _
    match s with
    | c :: cs =>
      have hcs : cs.length ≤ n := by simpa using h
      by_cases hpass : b = true ∨ matchSub (c :: cs) = none
      · rw [sSub_pass hpass]
        match cs with
        | [] => rw [sSub_nil]; exact ⟨by simp, rfl⟩
        | c2 :: cs2 =>
          obtain ⟨htne, htl⟩ := ih (c2 :: cs2) (isWordChar c) hcs (by simp)
          obtain ⟨t0, ts, hts⟩ := List.exists_cons_of_ne_nil htne
          rw [hts]
          rw [hts] at htl
          refine ⟨by simp, ?_⟩
          rw [List.getLast?_cons_cons, htl, List.getLast?_cons_cons]
      · push_neg at hpass
        obtain ⟨hb, hm⟩ := hpass
        have hb' : b = false := by cases b <;> simp_all
        subst hb'
        obtain ⟨⟨ds1, ds2, rest⟩, hms⟩ := Option.ne_none_iff_exists'.mp hm
        obtain ⟨hshape, -, -, -, -, hla⟩ := matchSub_eq_some hms
        have hrest : rest.length ≤ n := by
          have := matchSub_length hms
          simp at this ⊢
          omega
        obtain ⟨htne, htl⟩ := ih rest true hrest (lookaheadEq_ne_nil hla)
        rw [sSub_match hms, hshape]
        have harr : ('I' :: 'A' :: 'B' :: '_' ::
            (ds1 ++ '_' :: 'S' :: 'U' :: 'B' :: '_' :: (ds2 ++ sSub true rest))) =
            ('I' :: 'A' :: 'B' :: '_' ::
              (ds1 ++ '_' :: 'S' :: 'U' :: 'B' :: '_' :: ds2)) ++ sSub true rest := by
          simp
        have harr2 : ('I' :: 'A' :: 'B' :: (ds1 ++ '_' :: (ds2 ++ rest))) =
            ('I' :: 'A' :: 'B' :: (ds1 ++ '_' :: ds2)) ++ rest := by
          simp
        rw [harr, harr2]
        constructor
        · simp [htne]
        · rw [List.getLast?_append_of_ne_nil _ htne,
            List.getLast?_append_of_ne_nil _ (lookaheadEq_ne_nil hla), htl]

theorem eq_dropLast_append {l : List Char} {a : Char} (hne : l ≠ [])
    (h : l.getLast? = some a) : l = l.dropLast ++ [a] := by
  rw [List.getLast?_eq_getLast l hne, Option.some.injEq] at h
  rw [← h]
  rw [List.dropLast_append_getLast hne]

/-- `subSubLine` maps `readlines` lines to `readlines` lines: it keeps a
trailing newline trailing and introduces no new newline characters. -/
theorem lineList_map_subSubLine : ∀ ls : List (List Char), LineList ls →
    LineList (ls.map subSubLine) := by
  intro ls h
  induction h with
  | nil => exact LineList.nil
  | @last l hne hnl =>
    rw [List.map_cons, List.map_nil]
    have h1 := sSub_getLast_aux l.length l false le_rfl hne
    have h2 : (subSubLine l).count '\n' = 0 := by
      rw [subSubLine_eq, count_nl_sSub, List.count_eq_zero]
      exact hnl
    exact LineList.last h1.1 (List.count_eq_zero.mp h2)
  | @cons l' ls hnl h ih =>
    rw [List.map_cons]
    have hLne : l' ++ ['\n'] ≠ [] := by simp
    have h1 := sSub_getLast_aux (l' ++ ['\n']).length (l' ++ ['\n']) false le_rfl hLne
    have hc0 : l'.count '\n' = 0 := List.count_eq_zero.mpr hnl
    have hcount : (subSubLine (l' ++ ['\n'])).count '\n' = 1 := by
      rw [subSubLine_eq, count_nl_sSub, List.count_append, hc0]
      simp
    have hlast : (subSubLine (l' ++ ['\n'])).getLast? = some '\n' := by
      rw [subSubLine_eq]
      rw [h1.2, List.getLast?_append_of_ne_nil _ (by simp : ['\n'] ≠ ([] : List Char))]
      rfl
    have hdecomp : subSubLine (l' ++ ['\n']) =
        (subSubLine (l' ++ ['\n'])).dropLast ++ ['\n'] :=
      eq_dropLast_append (subSubLine_eq _ ▸ h1.1) hlast
    have hdrop : '\n' ∉ (subSubLine (l' ++ ['\n'])).dropLast := by
      rw [← List.count_eq_zero]
      have := hcount
      rw [hdecomp, List.count_append] at this
      simpa using this
    rw [hdecomp]
    exact LineList.cons hdrop ih

/-- Both sanitizer rewrites are idempotent at the text level. -/
theorem fixEnumsThoroughly_idem (s : List Char) :
    fixEnumsThoroughly (fixEnumsThoroughly s) = fixEnumsThoroughly s := by
  show ((splitLinesKeep (((splitLinesKeep s).map subSubLine).flatten)).map subSubLine).flatten
    = _
  rw [splitLinesKeep_flatten _ (lineList_map_subSubLine _ (lineList_split s))]
  rw [List.map_map]
  rw [show subSubLine ∘ subSubLine = subSubLine from funext subSubLine_idem]
  rfl

theorem fixProtoEnums_idem (s : List Char) :
    fixProtoEnums (fixProtoEnums s) = fixProtoEnums s := by
  simp only [fixProtoEnums_eq]
  exact sCat_idem false s

/-! Model of the protobuf data handled by `ProtobufHandler`
(`src/protocols/protobuf_handler.py`).  Message types are descriptors with
`int32`, `bool` and `string` fields (a string value is represented by its
UTF-8 byte sequence); this is the proto3 fragment exercised through the
handler's library calls (`json_format.ParseDict`, `SerializeToString`,
`ParseFromString`, `json_format.MessageToDict`). -/

inductive FieldType
  | int32
  | boolType
  | strType
deriving DecidableEq

structure FieldDesc where
  name : String
  number : Nat
  ftype : FieldType
deriving DecidableEq

abbrev MsgDesc := List FieldDesc

inductive JVal
  | int (i : Int)
  | boolV (b : Bool)
  | strV (bytes : List Nat)
deriving DecidableEq

abbrev JDict := List (String × JVal)

def defaultJVal : FieldType → JVal
  | .int32 => .int 0
  | .boolType => .boolV false
  | .strType => .strV []

/-- An attribute of a loaded `*_pb2` module, as inspected by
`get_message_types` via `dir(module)` and the
`isinstance(obj, type) and issubclass(obj, Message) and obj is not Message`
filter: either a generated message class, or any other attribute
(`DESCRIPTOR`, enum wrappers, support objects). -/
inductive ModuleAttr
  | msgClass (d : MsgDesc)
  | other
deriving DecidableEq

structure ProtoModule where
  attrs : List (String × ModuleAttr)
deriving DecidableEq

/-! Association-list primitives standing for the dictionaries and
per-environment files the handler reads and writes. -/

def lookupKey {α : Type} (k : String) : List (String × α) → Option α
  | [] => none
  | (k', v) :: rest => if k' = k then some v else lookupKey k rest

def setKey {α : Type} (k : String) (v : α) : List (String × α) → List (String × α)
  | [] => [(k, v)]
  | (k', v') :: rest => if k' = k then (k, v) :: rest else (k', v') :: setKey k v rest

def delKey {α : Type} (k : String) : List (String × α) → List (String × α)
  | [] => []
  | (k', v') :: rest => if k' = k then delKey k rest else (k', v') :: delKey k rest

/-- State of one `ProtobufHandler` instance together with the directories it
owns: `protoFiles` maps an environment name to its saved
`{env}/{env}.proto` source; `compiledPb2` maps it to the compiled
`{env}/{env}_pb2.py` artifact, represented by the module that artifact
loads to; `initDirs` records compiled directories whose `__init__.py` has
been touched; `loadedModules` is the in-memory `self._loaded_modules`
cache. -/
structure HandlerState where
  protoFiles : List (String × List Char)
  compiledPb2 : List (String × ProtoModule)
  initDirs : List String
  loadedModules : List (String × ProtoModule)
deriving DecidableEq

/-- Outcome of the `subprocess.run` invocation of `grpc_tools.protoc` as
observed by `compile_proto`'s `try`/`except` blocks: success (the compiler
wrote the `_pb2` artifact), `CalledProcessError` (nonzero exit,
diagnostics in `stderr`), or any other exception.  No `timeout=` is passed,
so `TimeoutExpired` is not among the possible outcomes. -/
inductive ProtocResult
  | ok (m : ProtoModule)
  | calledProcessError (stderr : String)
  | otherError (msg : String)

/-- `ProtobufHandler.compile_proto`: checks the proto file exists, creates
the per-environment compiled dir and its `__init__.py`, runs protoc, and on
success drops the environment's entry from `self._loaded_modules`; on
failure it returns `(False, diagnostic)` leaving files and cache as they
were. -/
def compile_proto (protoc : List Char → ProtocResult) (st : HandlerState)
    (environment_name : String) : (Bool × String) × HandlerState :=
  match lookupKey environment_name st.protoFiles with
  | none => ((false, "Proto file not found"), st)
  | some src =>
    let st1 := { st with initDirs := environment_name :: st.initDirs }
    match protoc src with
    | .ok m =>
      ((true, "Proto file compiled successfully"),
        { st1 with
          compiledPb2 := setKey environment_name m st1.compiledPb2,
          loadedModules := delKey environment_name st1.loadedModules })
    | .calledProcessError stderr =>
      ((false, "Compilation failed: " ++ stderr), st1)
    | .otherError msg =>
      ((false, "Unexpected error during compilation: " ++ msg), st1)

/-- The argument record the source passes to `subprocess.run` in
`compile_proto`: `capture_output=True, text=True, check=True`, and no
`timeout=` argument, i.e. `timeout = none` (wait indefinitely). -/
structure SubprocessRunArgs where
  cmd : List String
  capture_output : Bool
  text : Bool
  check : Bool
  timeout : Option Nat
deriving DecidableEq

def compileRunArgs (pythonExe protoDir compiledDir environment_name : String) :
    SubprocessRunArgs :=
  { cmd := [pythonExe, "-m", "grpc_tools.protoc",
      "-I" ++ protoDir ++ "/" ++ environment_name,
      "--python_out=" ++ compiledDir ++ "/" ++ environment_name,
      "--grpc_python_out=" ++ compiledDir ++ "/" ++ environment_name,
      protoDir ++ "/" ++ environment_name ++ "/" ++ environment_name ++ ".proto"],
    capture_output := true,
    text := true,
    check := true,
    timeout := none }

/-- `ProtobufHandler._load_proto_module`: serve from the cache when
possible; otherwise look for the compiled `{env}_pb2.py` artifact, load it
and cache it; `None` when the artifact is missing. -/
def loadProtoModule (st : HandlerState) (environment_name : String) :
    Option ProtoModule × HandlerState :=
  match lookupKey environment_name st.loadedModules with
  | some m => (some m, st)
  | none =>
    match lookupKey environment_name st.compiledPb2 with
    | none => (none, st)
    | some m =>
      (some m, { st with loadedModules := setKey environment_name m st.loadedModules })

def messageClassNames (m : ProtoModule) : List String :=
  m.attrs.filterMap (fun p =>
    match p.2 with
    | .msgClass _ => some p.1
    | .other => none)

/-- `ProtobufHandler.get_message_types`: `[]` when no module can be loaded,
otherwise the `Message` subclasses among the module's attributes, sorted. -/
def get_message_types (st : HandlerState) (environment_name : String) :
    List String × HandlerState :=
  match loadProtoModule st environment_name with
  | (none, st') => ([], st')
  | (some m, st') => (List.insertionSort (· ≤ ·) (messageClassNames m), st')

/-! Codec model: the `google.protobuf` semantics invoked by
`json_to_protobuf` and `protobuf_to_json`. -/

def jvalMatches : FieldType → JVal → Bool
  | .int32, .int i => decide (-(2 ^ 31 : Int) ≤ i ∧ i < 2 ^ 31)
  | .boolType, .boolV _ => true
  | .strType, .strV bs => bs.all (· < 256)
  | _, _ => false

/-- Validation part of `json_format.ParseDict`: every key of the dict must
name a declared field — `ParseDict` is called without
`ignore_unknown_fields=True`, so an unknown key raises `ParseError` — and
carry a type-compatible value. -/
def parseDictCheck (d : MsgDesc) : JDict → Bool
  | [] => true
  | (k, v) :: rest =>
    match d.find? (fun f => f.name == k) with
    | none => false
    | some f => jvalMatches f.ftype v && parseDictCheck d rest

/-- `json_format.ParseDict` as used by `json_to_protobuf`: on success, the
message has every declared field either set from the dict or left at its
default. -/
def parseDict (d : MsgDesc) (data : JDict) : Option (List (FieldDesc × JVal)) :=
  if parseDictCheck d data then
    some (d.map (fun f => (f, (lookupKey f.name data).getD (defaultJVal f.ftype))))
  else none

def varintF : Nat → Nat → List Nat
  | 0, n => [n % 128]
  | f + 1, n => if n < 128 then [n] else (n % 128 + 128) :: varintF f (n / 128)

/-- Little-endian base-128 varint encoding. -/
def varint (n : Nat) : List Nat := varintF n n

/-- Two's-complement 64-bit value serialized for an `int32` field: negative
values are sign-extended to 64 bits on the wire. -/
def encInt64 (i : Int) : Nat := (i.emod (2 ^ 64)).toNat

def wireTypeOf : FieldType → Nat
  | .int32 => 0
  | .boolType => 0
  | .strType => 2

def tagOf (f : FieldDesc) : Nat := f.number * 8 + wireTypeOf f.ftype

def encodePayload : FieldType → JVal → List Nat
  | .int32, .int i => varint (encInt64 i)
  | .boolType, .boolV b => varint (if b then 1 else 0)
  | .strType, .strV bs => varint bs.length ++ bs
  | _, _ => []

/-- `Message.SerializeToString` in proto3: each set (non-default) field is
emitted as a tag varint followed by its payload, in field order;
default-valued fields are skipped. -/
def serializeMsg : List (FieldDesc × JVal) → List Nat
  | [] => []
  | (f, v) :: rest =>
    (if v = defaultJVal f.ftype then [] else varint (tagOf f) ++ encodePayload f.ftype v)
      ++ serializeMsg rest

def parseVarint : List Nat → Option (Nat × List Nat)
  | [] => none
  | b :: rest =>
    if b < 128 then some (b, rest)
    else
      match parseVarint rest with
      | none => none
      | some (v, r) => some (v * 128 + (b - 128), r)

inductive RawVal
  | vint (n : Nat)
  | vbytes (bs : List Nat)
deriving DecidableEq

/-- `Message.ParseFromString` record scanner: reads
`(field number, raw value)` records; varint and length-delimited records
are collected, fixed 64/32-bit records are skipped (no declared field has
those wire types here), and group or invalid wire types, field number 0 and
truncation raise `DecodeError`. -/
def parseRecordsF : Nat → List Nat → Option (List (Nat × RawVal))
  | _, [] => some []
  | 0, _ :: _ => none
  | fuel + 1, b0 :: bytes0 =>
    let bytes := b0 :: bytes0
    match parseVarint bytes with
    | none => none
    | some (tag, r1) =>
      if tag / 8 = 0 then none
      else if tag % 8 = 0 then
        match parseVarint r1 with
        | none => none
        | some (v, r2) =>
          match parseRecordsF fuel r2 with
          | none => none
          | some recs => some ((tag / 8, .vint v) :: recs)
      else if tag % 8 = 2 then
        match parseVarint r1 with
        | none => none
        | some (len, r2) =>
          if len ≤ r2.length then
            match parseRecordsF fuel (r2.drop len) with
            | none => none
            | some recs => some ((tag / 8, .vbytes (r2.take len)) :: recs)
          else none
      else if tag % 8 = 1 then
        if 8 ≤ r1.length then parseRecordsF fuel (r1.drop 8) else none
      else if tag % 8 = 5 then
        if 4 ≤ r1.length then parseRecordsF fuel (r1.drop 4) else none
      else none

def parseRecords (bytes : List Nat) : Option (List (Nat × RawVal)) :=
  parseRecordsF bytes.length bytes

/-- Signed 32-bit interpretation of a varint payload (low 32 bits,
sign-extended), as parsing an `int32` field does. -/
def decInt32 (n : Nat) : Int := ((n : Int).emod (2 ^ 32) + 2 ^ 31).emod (2 ^ 32) - 2 ^ 31

def decodeRaw : FieldType → RawVal → Option JVal
  | .int32, .vint n => some (.int (decInt32 n))
  | .boolType, .vint n => some (.boolV (n ≠ 0))
  | .strType, .vbytes bs => some (.strV bs)
  | _, _ => none

/-- Last record wins for a scalar field parsed repeatedly. -/
def lastRecord (num : Nat) : List (Nat × RawVal) → Option RawVal
  | [] => none
  | (n, r) :: rest =>
    match lastRecord num rest with
    | some r' => some r'
    | none => if n = num then some r else none

/-- `json_format.MessageToDict(message, preserving_proto_field_name=True,
including_default_value_fields=True)`: every declared field appears under
its schema-declared name, set fields with their parsed value and the rest
with their default. -/
def messageToDict (d : MsgDesc) (recs : List (Nat × RawVal)) : JDict :=
  d.map (fun f =>
    (f.name,
      match lastRecord f.number recs with
      | none => defaultJVal f.ftype
      | some r => (decodeRaw f.ftype r).getD (defaultJVal f.ftype)))

/-- The distinct failure causes inside the `try` blocks of
`json_to_protobuf` and `protobuf_to_json`; each is raised (`ValueError` for
the first three) or propagated there, and caught by `except Exception`,
which prints the error and returns `None`. -/
inductive CodecErr
  | loadFailed (environment_name : String)
  | unknownMessage (message_name : String)
  | notAMessageClass (message_name : String)
  | parseDictError
  | decodeError
deriving DecidableEq

def jsonToProtobufE (st : HandlerState) (environment_name message_name : String)
    (json_data : JDict) : Except CodecErr (List Nat) × HandlerState :=
  match loadProtoModule st environment_name with
  | (none, st') => (.error (.loadFailed environment_name), st')
  | (some m, st') =>
    match lookupKey message_name m.attrs with
    | none => (.error (.unknownMessage message_name), st')
    | some .other => (.error (.notAMessageClass message_name), st')
    | some (.msgClass d) =>
      match parseDict d json_data with
      | none => (.error .parseDictError, st')
      | some msg => (.ok (serializeMsg msg), st')

/-- `ProtobufHandler.json_to_protobuf`: every exception inside the `try`
block is caught and `None` is returned. -/
def json_to_protobuf (st : HandlerState) (environment_name message_name : String)
    (json_data : JDict) : Option (List Nat) × HandlerState :=
  match jsonToProtobufE st environment_name message_name json_data with
  | (.ok bs, st') => (some bs, st')
  | (.error _, st') => (none, st')

def protobufToJsonE (st : HandlerState) (environment_name message_name : String)
    (binary_data : List Nat) : Except CodecErr JDict × HandlerState :=
  match loadProtoModule st environment_name with
  | (none, st') => (.error (.loadFailed environment_name), st')
  | (some m, st') =>
    match lookupKey message_name m.attrs with
    | none => (.error (.unknownMessage message_name), st')
    | some .other => (.error (.notAMessageClass message_name), st')
    | some (.msgClass d) =>
      match parseRecords binary_data with
      | none => (.error .decodeError, st')
      | some recs => (.ok (messageToDict d recs), st')

/-- `ProtobufHandler.protobuf_to_json`: every exception inside the `try`
block is caught and `None` is returned. -/
def protobuf_to_json (st : HandlerState) (environment_name message_name : String)
    (binary_data : List Nat) : Option JDict × HandlerState :=
  match protobufToJsonE st environment_name message_name binary_data with
  | (.ok j, st') => (some j, st')
  | (.error _, st') => (none, st')

/-- Descriptor wellformedness guaranteed by protoc for a compiled message:
positive, strictly increasing field numbers and distinct field names. -/
def wfDesc (d : MsgDesc) : Prop :=
  d.Pairwise (fun f g => f.number < g.number) ∧ (∀ f ∈ d, 1 ≤ f.number) ∧
    (d.map FieldDesc.name).Nodup

/-- A structured value conforming to a message shape: distinct keys, each
naming a declared field and carrying a type-compatible value. -/
def conforms (d : MsgDesc) (data : JDict) : Prop :=
  (∀ kv ∈ data, ∃ f ∈ d, f.name = kv.1 ∧ jvalMatches f.ftype kv.2) ∧
    (data.map Prod.fst).Nodup

instance (d : MsgDesc) : Decidable (wfDesc d) := by
  unfold wfDesc
  infer_instance

instance (d : MsgDesc) (data : JDict) : Decidable (conforms d data) := by
  unfold conforms
  infer_instance

/-! Association-list lemmas. -/

theorem lookupKey_setKey_self {α : Type} (k : String) (v : α) (l : List (String × α)) :
    lookupKey k (setKey k v l) = some v := by
  induction l with
  | nil => simp [setKey, lookupKey]
  | cons p rest ih =>
    obtain ⟨k', v'⟩ := p
    by_cases h : k' = k
    · simp [setKey, h, lookupKey]
    · simp [setKey, h, lookupKey, ih]

theorem lookupKey_setKey_other {α : Type} {k k' : String} (h : k' ≠ k) (v : α)
    (l : List (String × α)) : lookupKey k' (setKey k v l) = lookupKey k' l := by
  induction l with
  | nil => simp [setKey, lookupKey, Ne.symm h]
  | cons p rest ih =>
    obtain ⟨k'', v''⟩ := p
    by_cases h2 : k'' = k
    · subst h2
      simp [setKey, lookupKey, Ne.symm h]
    · simp only [setKey, if_neg h2, lookupKey]
      by_cases h3 : k'' = k'
      · simp [h3]
      · simp [h3, ih]

theorem lookupKey_delKey_self {α : Type} (k : String) (l : List (String × α)) :
    lookupKey k (delKey k l) = none := by
  induction l with
  | nil => rfl
  | cons p rest ih =>
    obtain ⟨k', v'⟩ := p
    by_cases h : k' = k
    · simp [delKey, h, ih]
    · simp [delKey, h, lookupKey, ih]

theorem lookupKey_delKey_other {α : Type} {k k' : String} (h : k' ≠ k)
    (l : List (String × α)) : lookupKey k' (delKey k l) = lookupKey k' l := by
  induction l with
  | nil => rfl
  | cons p rest ih =>
    obtain ⟨k'', v''⟩ := p
    by_cases h2 : k'' = k
    · subst h2
      simp [delKey, lookupKey, Ne.symm h, ih]
    · simp only [delKey, if_neg h2, lookupKey]
      by_cases h3 : k'' = k'
      · simp [h3]
      · simp [h3, ih]

theorem lookupKey_mem {α : Type} {k : String} {v : α} {l : List (String × α)}
    (h : lookupKey k l = some v) : (k, v) ∈ l := by
  induction l with
  | nil => simp [lookupKey] at h
  | cons p rest ih =>
    obtain ⟨k', v'⟩ := p
    rw [lookupKey] at h
    by_cases h2 : k' = k
    · rw [if_pos h2] at h
      obtain rfl := Option.some.injEq .. ▸ h
      · subst h2
        exact List.mem_cons_self _ _
    · rw [if_neg h2] at h
      exact List.mem_cons_of_mem _ (ih h)

/-! Varint encoding. -/

theorem varintF_congr : ∀ f g n : Nat, n ≤ f → n ≤ g → varintF f n = varintF g n := by
  intro f
  induction f with
  | zero =>
    intro g n hf hg
    have hn : n = 0 := Nat.le_zero.mp hf
    subst hn
    cases g with
    | zero => rfl
    | succ g => simp [varintF]
  | succ f ih =>
    intro g n hf hg
    match g with
    | 0 =>
      have hn : n = 0 := Nat.le_zero.mp hg
      subst hn
      simp [varintF]
    | g + 1 =>
      simp only [varintF]
      by_cases h : n < 128
      · simp [h]
      · have hd : n / 128 < n := Nat.div_lt_self (by omega) (by omega)
        have h1 : n / 128 ≤ f := by omega
        have h2 : n / 128 ≤ g := by omega
        simp only [h, if_false]
        exact congrArg _ (ih g (n / 128) h1 h2)

theorem varint_eq (n : Nat) :
    varint n = if n < 128 then [n] else (n % 128 + 128) :: varint (n / 128) := by
  by_cases h : n < 128
  · cases n with
    | zero => simp [varint, varintF]
    | succ m => simp [varint, varintF, h]
  · obtain ⟨m, rfl⟩ : ∃ m, n = m + 1 := ⟨n - 1, by omega⟩
    simp only [varint, varintF, h, if_false]
    have hd : (m + 1) / 128 < m + 1 := Nat.div_lt_self (by omega) (by omega)
    exact congrArg _ (varintF_congr m ((m + 1) / 128) ((m + 1) / 128) (by omega) le_rfl)

theorem varint_ne_nil (n : Nat) : varint n ≠ [] := by
  rw [varint_eq]
  split <;> simp

theorem parseVarint_varint : ∀ n r, parseVarint (varint n ++ r) = some (n, r) := by
  intro n
  induction n using Nat.strong_induction_on with
  | _ n ih =>
    intro r
    rw [varint_eq]
    by_cases h : n < 128
    · simp [parseVarint, h]
    · have hb : ¬ (n % 128 + 128 < 128) := by omega
      have hd : n / 128 < n := Nat.div_lt_self (by omega) (by omega)
      rw [if_neg h, List.cons_append]
      simp only [parseVarint, hb, if_false, ih (n / 128) hd r]
      simp
      omega

/-! C2, C6, C7 and their supporting facts. -/

/-- C2: a successful `compile_proto` removes the environment's
`_loaded_modules` cache entry; a failed one leaves both the cache entry and
any previously compiled artifact for that environment unchanged. -/
theorem c2_compile_atomicity (protoc : List Char → ProtocResult)
    (st : HandlerState) (env : String) :
    ((compile_proto protoc st env).1.1 = true →
      lookupKey env ((compile_proto protoc st env).2).loadedModules = none) ∧
    ((compile_proto protoc st env).1.1 = false →
      lookupKey env ((compile_proto protoc st env).2).loadedModules =
        lookupKey env st.loadedModules ∧
      lookupKey env ((compile_proto protoc st env).2).compiledPb2 =
        lookupKey env st.compiledPb2) := by
  unfold compile_proto
  cases hf : lookupKey env st.protoFiles with
  | none => simp
  | some src =>
    cases hp : protoc src with
    | ok m => simp [hp, lookupKey_delKey_self]
    | calledProcessError e => simp [hp]
    | otherError e => simp [hp]

theorem c2_compile_atomicity_witness :
    lookupKey "e1" ((compile_proto (fun _ => .ok ⟨[]⟩)
      ⟨[("e1", [])], [], [], [("e1", ⟨[]⟩)]⟩ "e1").2).loadedModules = none ∧
    (lookupKey "e1" ((compile_proto (fun _ => .calledProcessError "syntax error")
        ⟨[("e1", [])], [("e1", ⟨[("Ping", .msgClass [])]⟩)], [],
          [("e1", ⟨[("Ping", .msgClass [])]⟩)]⟩ "e1").2).loadedModules =
      lookupKey "e1" [("e1", (⟨[("Ping", .msgClass [])]⟩ : ProtoModule))] ∧
    lookupKey "e1" ((compile_proto (fun _ => .calledProcessError "syntax error")
        ⟨[("e1", [])], [("e1", ⟨[("Ping", .msgClass [])]⟩)], [],
          [("e1", ⟨[("Ping", .msgClass [])]⟩)]⟩ "e1").2).compiledPb2 =
      lookupKey "e1" [("e1", (⟨[("Ping", .msgClass [])]⟩ : ProtoModule))]) :=
  ⟨(c2_compile_atomicity (fun _ => .ok ⟨[]⟩)
      ⟨[("e1", [])], [], [], [("e1", ⟨[]⟩)]⟩ "e1").1 rfl,
   (c2_compile_atomicity (fun _ => .calledProcessError "syntax error")
      ⟨[("e1", [])], [("e1", ⟨[("Ping", .msgClass [])]⟩)], [],
        [("e1", ⟨[("Ping", .msgClass [])]⟩)]⟩ "e1").2 rfl⟩

/-- C6 counterexample: the `subprocess.run` invocation built by
`compile_proto` passes no `timeout=` argument — at a concrete environment
the call record has `timeout = none`, so the external compiler does not run
under a bounded timeout and no timeout-triggered termination exists. -/
theorem c6_counterexample :
    (compileRunArgs "python" "./proto_files" "./compiled_protos" "e1").timeout = none := rfl

/-- C6 amended: every compiler invocation built by `compile_proto` waits
without bound (`timeout = none`); compile failures surface only as
`CalledProcessError` or other exceptions, never as a timeout. -/
theorem c6_no_timeout (pythonExe protoDir compiledDir env : String) :
    (compileRunArgs pythonExe protoDir compiledDir env).timeout = none := rfl

/-- C7: `get_message_types` always returns an ascending sorted list, and
returns `[]` rather than failing when no module can be loaded for the
environment (no cache entry and no compiled artifact). -/
theorem c7_message_catalog (st : HandlerState) (env : String) :
    List.Sorted (· ≤ ·) (get_message_types st env).1 ∧
    (lookupKey env st.loadedModules = none → lookupKey env st.compiledPb2 = none →
      (get_message_types st env).1 = []) := by
  constructor
  · unfold get_message_types
    cases h : loadProtoModule st env with
    | mk o st' =>
      cases o with
      | none => simp
      | some m =>
        simp only
        exact List.sorted_insertionSort _ _
  · intro h1 h2
    unfold get_message_types loadProtoModule
    simp [h1, h2]

theorem c7_message_catalog_witness :
    (get_message_types ⟨[], [], [], []⟩ "e1").1 = [] :=
  (c7_message_catalog ⟨[], [], [], []⟩ "e1").2 rfl rfl

/-! C4 and C10: failure outcomes of the codec entry points. -/

theorem mem_messageClassNames {name : String} {m : ProtoModule} {d : MsgDesc}
    (h : lookupKey name m.attrs = some (.msgClass d)) : name ∈ messageClassNames m := by
  have hm := lookupKey_mem h
  unfold messageClassNames
  exact List.mem_filterMap.mpr ⟨(name, .msgClass d), hm, rfl⟩

/-- C4: encoding with a message name absent from the environment's message
catalog fails for every payload: `json_to_protobuf` returns `None`, and
when the name is not an attribute of the loaded module at all, the failure
cause inside the `try` block is the `ValueError` raised for
`Message type not found` — the `UnknownMessageType` outcome. -/
theorem c4_unknown_type (st : HandlerState) (env name : String) (data : JDict)
    (h : name ∉ (get_message_types st env).1) :
    (json_to_protobuf st env name data).1 = none ∧
    (∀ m, (loadProtoModule st env).1 = some m → lookupKey name m.attrs = none →
      (jsonToProtobufE st env name data).1 = Except.error (.unknownMessage name)) := by
  constructor
  · unfold json_to_protobuf jsonToProtobufE
    cases hl : loadProtoModule st env with
    | mk o st' =>
      cases o with
      | none => simp [hl]
      | some m =>
        cases ha : lookupKey name m.attrs with
        | none => simp [hl, ha]
        | some attr =>
          cases attr with
          | other => simp [hl, ha]
          | msgClass d =>
            exfalso
            apply h
            unfold get_message_types
            rw [hl]
            simp only
            exact ((List.perm_insertionSort (· ≤ ·) (messageClassNames m)).mem_iff).mpr
              (mem_messageClassNames ha)
  · intro m hm ha
    unfold jsonToProtobufE
    cases hl : loadProtoModule st env with
    | mk o st' =>
      rw [hl] at hm
      simp only at hm
      subst hm
      simp [hl, ha]

theorem c4_unknown_type_witness :
    (json_to_protobuf ⟨[], [], [], [("e1", ⟨[("Ping", .msgClass [])]⟩)]⟩
      "e1" "Missing" []).1 = none ∧
    (∀ m, (loadProtoModule ⟨[], [], [], [("e1", ⟨[("Ping", .msgClass [])]⟩)]⟩ "e1").1 =
        some m → lookupKey "Missing" m.attrs = none →
      (jsonToProtobufE ⟨[], [], [], [("e1", ⟨[("Ping", .msgClass [])]⟩)]⟩
        "e1" "Missing" []).1 = Except.error (.unknownMessage "Missing")) :=
  c4_unknown_type ⟨[], [], [], [("e1", ⟨[("Ping", .msgClass [])]⟩)]⟩ "e1" "Missing" []
    (by decide)

/-- C10: codec totality: both converters are total functions into an
option type, and each distinct failure cause — module-load failure, unknown
message name, non-message attribute, `ParseDict` rejection of the value,
malformed bytes — collapses to the single outcome `None`. -/
theorem c10_totality (st : HandlerState) (env name : String) (data : JDict)
    (bs : List Nat) :
    ((loadProtoModule st env).1 = none →
      (json_to_protobuf st env name data).1 = none ∧
      (protobuf_to_json st env name bs).1 = none) ∧
    (∀ m, (loadProtoModule st env).1 = some m → lookupKey name m.attrs = none →
      (json_to_protobuf st env name data).1 = none ∧
      (protobuf_to_json st env name bs).1 = none) ∧
    (∀ m, (loadProtoModule st env).1 = some m → lookupKey name m.attrs = some .other →
      (json_to_protobuf st env name data).1 = none ∧
      (protobuf_to_json st env name bs).1 = none) ∧
    (∀ m d, (loadProtoModule st env).1 = some m →
      lookupKey name m.attrs = some (.msgClass d) → parseDict d data = none →
      (json_to_protobuf st env name data).1 = none) ∧
    (∀ m d, (loadProtoModule st env).1 = some m →
      lookupKey name m.attrs = some (.msgClass d) → parseRecords bs = none →
      (protobuf_to_json st env name bs).1 = none) := by
  cases hl : loadProtoModule st env with
  | mk o st' =>
    refine ⟨?_, ?_, ?_, ?_, ?_⟩
    · intro h
      simp only at h
      subst h
      unfold json_to_protobuf jsonToProtobufE protobuf_to_json protobufToJsonE
      simp [hl]
    · intro m hm ha
      simp only at hm
      subst hm
      unfold json_to_protobuf jsonToProtobufE protobuf_to_json protobufToJsonE
      simp [hl, ha]
    · intro m hm ha
      simp only at hm
      subst hm
      unfold json_to_protobuf jsonToProtobufE protobuf_to_json protobufToJsonE
      simp [hl, ha]
    · intro m d hm ha hpd
      simp only at hm
      subst hm
      unfold json_to_protobuf jsonToProtobufE
      simp [hl, ha, hpd]
    · intro m d hm ha hpr
      simp only at hm
      subst hm
      unfold protobuf_to_json protobufToJsonE
      simp [hl, ha, hpr]

theorem c10_totality_witness :
    (json_to_protobuf ⟨[], [], [], []⟩ "e1" "M" []).1 = none ∧
    (protobuf_to_json ⟨[], [], [], []⟩ "e1" "M" []).1 = none ∧
    (json_to_protobuf ⟨[], [], [], [("e1", ⟨[]⟩)]⟩ "e1" "M" []).1 = none ∧
    (json_to_protobuf ⟨[], [], [], [("e1", ⟨[("D", .other)]⟩)]⟩ "e1" "D" []).1 = none ∧
    (json_to_protobuf ⟨[], [], [], [("e1", ⟨[("M", .msgClass [])]⟩)]⟩
      "e1" "M" [("bad", .int 1)]).1 = none ∧
    (protobuf_to_json ⟨[], [], [], [("e1", ⟨[("M", .msgClass [])]⟩)]⟩
      "e1" "M" [128]).1 = none := by
  refine ⟨((c10_totality ⟨[], [], [], []⟩ "e1" "M" [] []).1 rfl).1,
    ((c10_totality ⟨[], [], [], []⟩ "e1" "M" [] []).1 rfl).2,
    ((c10_totality ⟨[], [], [], [("e1", ⟨[]⟩)]⟩ "e1" "M" [] []).2.1 _ rfl rfl).1,
    ((c10_totality ⟨[], [], [], [("e1", ⟨[("D", .other)]⟩)]⟩ "e1" "D" [] []).2.2.1
      _ rfl rfl).1,
    (c10_totality ⟨[], [], [], [("e1", ⟨[("M", .msgClass [])]⟩)]⟩ "e1" "M"
      [("bad", .int 1)] []).2.2.2.1 _ _ rfl rfl (by decide),
    (c10_totality ⟨[], [], [], [("e1", ⟨[("M", .msgClass [])]⟩)]⟩ "e1" "M"
      [] [128]).2.2.2.2 _ _ rfl rfl (by decide)⟩

/-! C8: cross-environment isolation. -/

theorem compile_proto_other (protoc : List Char → ProtocResult) (st : HandlerState)
    (env e : String) (h : e ≠ env) :
    lookupKey e ((compile_proto protoc st env).2).protoFiles =
      lookupKey e st.protoFiles ∧
    lookupKey e ((compile_proto protoc st env).2).compiledPb2 =
      lookupKey e st.compiledPb2 ∧
    lookupKey e ((compile_proto protoc st env).2).loadedModules =
      lookupKey e st.loadedModules := by
  unfold compile_proto
  cases hf : lookupKey env st.protoFiles with
  | none => simp
  | some src =>
    cases hp : protoc src with
    | ok m => simp [hp, lookupKey_setKey_other h, lookupKey_delKey_other h]
    | calledProcessError e2 => simp [hp]
    | otherError e2 => simp [hp]

theorem compile_proto_self (protoc : List Char → ProtocResult) (st st' : HandlerState)
    (env : String)
    (hp : lookupKey env st.protoFiles = lookupKey env st'.protoFiles)
    (hc : lookupKey env st.compiledPb2 = lookupKey env st'.compiledPb2)
    (hl : lookupKey env st.loadedModules = lookupKey env st'.loadedModules) :
    lookupKey env ((compile_proto protoc st env).2).compiledPb2 =
      lookupKey env ((compile_proto protoc st' env).2).compiledPb2 ∧
    lookupKey env ((compile_proto protoc st env).2).loadedModules =
      lookupKey env ((compile_proto protoc st' env).2).loadedModules := by
  unfold compile_proto
  cases hf : lookupKey env st.protoFiles with
  | none =>
    have hf' : lookupKey env st'.protoFiles = none := by rw [← hp, hf]
    simp [hf, hf', hc, hl]
  | some src =>
    have hf' : lookupKey env st'.protoFiles = some src := by rw [← hp, hf]
    cases hq : protoc src with
    | ok m => simp [hf, hf', hq, lookupKey_setKey_self, lookupKey_delKey_self]
    | calledProcessError e => simp [hf, hf', hq, hc, hl]
    | otherError e => simp [hf, hf', hq, hc, hl]

theorem loadProtoModule_eq_of_lookup (st st' : HandlerState) (env : String)
    (hc : lookupKey env st.compiledPb2 = lookupKey env st'.compiledPb2)
    (hl : lookupKey env st.loadedModules = lookupKey env st'.loadedModules) :
    (loadProtoModule st env).1 = (loadProtoModule st' env).1 := by
  unfold loadProtoModule
  rw [← hl, ← hc]
  cases lookupKey env st.loadedModules <;> cases lookupKey env st.compiledPb2 <;> simp

theorem json_to_protobuf_eq_of_lookup (st st' : HandlerState) (env : String)
    (name : String) (data : JDict)
    (hc : lookupKey env st.compiledPb2 = lookupKey env st'.compiledPb2)
    (hl : lookupKey env st.loadedModules = lookupKey env st'.loadedModules) :
    (json_to_protobuf st env name data).1 = (json_to_protobuf st' env name data).1 := by
  have hload := loadProtoModule_eq_of_lookup st st' env hc hl
  unfold json_to_protobuf jsonToProtobufE
  cases h1 : loadProtoModule st env with
  | mk o1 s1 =>
    cases h2 : loadProtoModule st' env with
    | mk o2 s2 =>
      rw [h1, h2] at hload
      simp only at hload
      subst hload
      cases o1 with
      | none => simp [h1, h2]
      | some m =>
        cases ha : lookupKey name m.attrs with
        | none => simp [h1, h2, ha]
        | some attr =>
          cases attr with
          | other => simp [h1, h2, ha]
          | msgClass d =>
            cases hpd : parseDict d data <;> simp [h1, h2, ha, hpd]

theorem protobuf_to_json_eq_of_lookup (st st' : HandlerState) (env : String)
    (name : String) (bs : List Nat)
    (hc : lookupKey env st.compiledPb2 = lookupKey env st'.compiledPb2)
    (hl : lookupKey env st.loadedModules = lookupKey env st'.loadedModules) :
    (protobuf_to_json st env name bs).1 = (protobuf_to_json st' env name bs).1 := by
  have hload := loadProtoModule_eq_of_lookup st st' env hc hl
  unfold protobuf_to_json protobufToJsonE
  cases h1 : loadProtoModule st env with
  | mk o1 s1 =>
    cases h2 : loadProtoModule st' env with
    | mk o2 s2 =>
      rw [h1, h2] at hload
      simp only at hload
      subst hload
      cases o1 with
      | none => simp [h1, h2]
      | some m =>
        cases ha : lookupKey name m.attrs with
        | none => simp [h1, h2, ha]
        | some attr =>
          cases attr with
          | other => simp [h1, h2, ha]
          | msgClass d =>
            cases hpr : parseRecords bs <;> simp [h1, h2, ha, hpr]

/-- C8: cross-environment isolation: compiling environment `b` (with any
schema, including one defining the same message names with different
shapes) never changes encode or decode results for a distinct environment
`a`; and after compiling both environments, each environment's compiled
artifact and cache entry are independent of the order of the two
compiles. -/
theorem c8_isolation (protoc1 protoc2 : List Char → ProtocResult) (st : HandlerState)
    (a b name : String) (hab : a ≠ b) (data : JDict) (bs : List Nat) :
    (json_to_protobuf ((compile_proto protoc2 st b).2) a name data).1 =
      (json_to_protobuf st a name data).1 ∧
    (protobuf_to_json ((compile_proto protoc2 st b).2) a name bs).1 =
      (protobuf_to_json st a name bs).1 ∧
    (∀ e : String,
      lookupKey e
          ((compile_proto protoc2 (compile_proto protoc1 st a).2 b).2).compiledPb2 =
        lookupKey e
          ((compile_proto protoc1 (compile_proto protoc2 st b).2 a).2).compiledPb2 ∧
      lookupKey e
          ((compile_proto protoc2 (compile_proto protoc1 st a).2 b).2).loadedModules =
        lookupKey e
          ((compile_proto protoc1 (compile_proto protoc2 st b).2 a).2).loadedModules) := by
  obtain ⟨hbp, hbc, hbl⟩ := compile_proto_other protoc2 st b a hab
  refine ⟨json_to_protobuf_eq_of_lookup ((compile_proto protoc2 st b).2) st a name data
      hbc hbl,
    protobuf_to_json_eq_of_lookup ((compile_proto protoc2 st b).2) st a name bs
      hbc hbl, ?_⟩
  intro e
  by_cases hea : e = a
  · subst hea
    obtain ⟨h1p, h1c, h1l⟩ :=
      compile_proto_other protoc2 (compile_proto protoc1 st e).2 b e hab
    obtain ⟨h2c, h2l⟩ := compile_proto_self protoc1
      st ((compile_proto protoc2 st b).2) e
      hbp.symm hbc.symm hbl.symm
    exact ⟨h1c.trans h2c, h1l.trans h2l⟩
  · by_cases heb : e = b
    · subst heb
      obtain ⟨hap, hac, hal⟩ :=
        compile_proto_other protoc1 st a e (Ne.symm hab)
      obtain ⟨h2c, h2l⟩ := compile_proto_self protoc2
        ((compile_proto protoc1 st a).2) st e hap hac hal
      obtain ⟨h1p, h1c, h1l⟩ := compile_proto_other protoc1
        ((compile_proto protoc2 st e).2) a e (Ne.symm hab)
      exact ⟨h2c.trans h1c.symm, h2l.trans h1l.symm⟩
    · obtain ⟨p1, c1, l1⟩ := compile_proto_other protoc2
        ((compile_proto protoc1 st a).2) b e heb
      obtain ⟨p2, c2, l2⟩ := compile_proto_other protoc1 st a e hea
      obtain ⟨p3, c3, l3⟩ := compile_proto_other protoc1
        ((compile_proto protoc2 st b).2) a e hea
      obtain ⟨p4, c4, l4⟩ := compile_proto_other protoc2 st b e heb
      exact ⟨(c1.trans c2).trans (c3.trans c4).symm,
        (l1.trans l2).trans (l3.trans l4).symm⟩

theorem c8_isolation_witness :
    (json_to_protobuf ((compile_proto
        (fun _ => .ok ⟨[("Foo", .msgClass [⟨"x", 1, .boolType⟩])]⟩)
        ⟨[("b", [])], [], [], []⟩ "b").2) "a" "Foo" []).1 =
      (json_to_protobuf ⟨[("b", [])], [], [], []⟩ "a" "Foo" []).1 :=
  (c8_isolation (fun _ => .ok ⟨[]⟩)
    (fun _ => .ok ⟨[("Foo", .msgClass [⟨"x", 1, .boolType⟩])]⟩)
    ⟨[("b", [])], [], [], []⟩ "a" "b" "Foo" (by decide) [] []).1

/-! Round-trip machinery for C1: relating `ParseDict`, serialization and
parsing over the wire-format model. -/

/-- The raw wire value a set field serializes to. -/
def rawOf : FieldType → JVal → RawVal
  | .int32, .int i => .vint (encInt64 i)
  | .boolType, .boolV b => .vint (if b then 1 else 0)
  | .strType, .strV bs => .vbytes bs
  | _, _ => .vint 0

/-- The records a serialized message parses back to: one per non-default
field, in order. -/
def recordsOf : List (FieldDesc × JVal) → List (Nat × RawVal)
  | [] => []
  | (f, v) :: rest =>
    (if v = defaultJVal f.ftype then [] else [(f.number, rawOf f.ftype v)]) ++ recordsOf rest

theorem find?_name_eq {d : MsgDesc} {f : FieldDesc} (hnodup : (d.map FieldDesc.name).Nodup)
    (hf : f ∈ d) : d.find? (fun g => g.name == f.name) = some f := by
  induction d with
  | nil => simp at hf
  | cons g rest ih =>
    rw [List.map_cons, List.nodup_cons] at hnodup
    obtain ⟨hg_not, hrest⟩ := hnodup
    by_cases hg : g.name == f.name
    · have hgf : g = f := by
        rcases List.mem_cons.mp hf with rfl | hf'
        · rfl
        · exfalso
          apply hg_not
          rw [show g.name = f.name from by simpa using hg]
          exact List.mem_map.mpr ⟨f, hf', rfl⟩
      subst hgf
      simp [List.find?_cons, hg]
    · have hf' : f ∈ rest := by
        rcases List.mem_cons.mp hf with rfl | hf'
        · simp at hg
        · exact hf'
      simp [List.find?_cons, hg, ih hrest hf']

theorem parseDictCheck_of_conforms {d : MsgDesc} {data : JDict}
    (hnodup : (d.map FieldDesc.name).Nodup)
    (hconf : ∀ kv ∈ data, ∃ f ∈ d, f.name = kv.1 ∧ jvalMatches f.ftype kv.2) :
    parseDictCheck d data = true := by
  induction data with
  | nil => rfl
  | cons kv rest ih =>
    obtain ⟨k, v⟩ := kv
    obtain ⟨f, hfd, hname, hmatch⟩ := hconf (k, v) (by simp)
    rw [parseDictCheck]
    have hfind : d.find? (fun g => g.name == k) = some f := by
      have h0 := find?_name_eq hnodup hfd
      rw [hname] at h0
      exact h0
    rw [hfind]
    simp [hmatch, ih (fun kv hkv => hconf kv (by simp [hkv]))]

theorem name_inj {d : MsgDesc} (hnodup : (d.map FieldDesc.name).Nodup)
    {f g : FieldDesc} (hf : f ∈ d) (hg : g ∈ d) (h : f.name = g.name) : f = g :=
  List.inj_on_of_nodup_map hnodup hf hg h

theorem conforms_lookup_matches {d : MsgDesc} {data : JDict}
    (hnodup : (d.map FieldDesc.name).Nodup) (hconf : conforms d data)
    {f : FieldDesc} {v : JVal} (hf : f ∈ d) (hv : lookupKey f.name data = some v) :
    jvalMatches f.ftype v := by
  obtain ⟨g, hgd, hgname, hgmatch⟩ := hconf.1 (f.name, v) (lookupKey_mem hv)
  have : g = f := name_inj hnodup hgd hf hgname
  subst this
  exact hgmatch

theorem jvalMatches_default (ft : FieldType) : jvalMatches ft (defaultJVal ft) = true := by
  cases ft <;> decide

theorem decInt32_encInt64 {i : Int} (h1 : -(2 ^ 31) ≤ i) (h2 : i < 2 ^ 31) :
    decInt32 (encInt64 i) = i := by
  unfold decInt32 encInt64
  by_cases hi : 0 ≤ i
  · have he : i.emod (2 ^ 64) = i :=
      Int.emod_eq_of_lt hi (h2.trans (by norm_num))
    rw [he, Int.toNat_of_nonneg hi]
    have ha : i.emod (2 ^ 32) = i := Int.emod_eq_of_lt hi (h2.trans (by norm_num))
    rw [ha]
    have hb : (i + 2 ^ 31).emod (2 ^ 32) = i + 2 ^ 31 :=
      Int.emod_eq_of_lt (by linarith [show (0:Int) ≤ 2 ^ 31 from by norm_num])
        (by linarith [show (2:Int) ^ 31 + 2 ^ 31 = 2 ^ 32 from by norm_num])
    rw [hb]
    ring
  · push_neg at hi
    have he : i.emod (2 ^ 64) = i + 2 ^ 64 := by
      show i % (2 ^ 64) = i + 2 ^ 64
      have h0 : (i + 2 ^ 64 * 1) % (2 ^ 64) = i % (2 ^ 64) :=
        Int.add_mul_emod_self_left ..
      rw [← h0, mul_one]

      exact Int.emod_eq_of_lt
        (by linarith [show (2:Int) ^ 31 ≤ 2 ^ 64 from by norm_num]) (by linarith)
    rw [he, Int.toNat_of_nonneg
      (by linarith [show (2:Int) ^ 31 ≤ 2 ^ 64 from by norm_num])]
    have ha : (i + 2 ^ 64).emod (2 ^ 32) = i + 2 ^ 32 := by
      have hrw : i + 2 ^ 64 = (i + 2 ^ 32) + 2 ^ 32 * (2 ^ 32 - 1) := by ring
      rw [hrw]
      show ((i + 2 ^ 32) + 2 ^ 32 * (2 ^ 32 - 1)) % (2 ^ 32) = i + 2 ^ 32
      rw [Int.add_mul_emod_self_left]
      exact Int.emod_eq_of_lt
        (by linarith [show (2:Int) ^ 31 ≤ 2 ^ 32 from by norm_num]) (by linarith)
    rw [ha]
    have hb : (i + 2 ^ 32 + 2 ^ 31).emod (2 ^ 32) = i + 2 ^ 31 := by
      have hrw : i + 2 ^ 32 + 2 ^ 31 = (i + 2 ^ 31) + 2 ^ 32 * 1 := by ring
      rw [hrw]
      show ((i + 2 ^ 31) + 2 ^ 32 * 1) % (2 ^ 32) = i + 2 ^ 31
      rw [Int.add_mul_emod_self_left]
      exact Int.emod_eq_of_lt (by linarith)
        (by linarith [show (2:Int) ^ 31 + 2 ^ 31 = 2 ^ 32 from by norm_num])
    rw [hb]
    ring

theorem decodeRaw_rawOf {ft : FieldType} {v : JVal} (h : jvalMatches ft v = true) :
    decodeRaw ft (rawOf ft v) = some v := by
  cases ft with
  | int32 =>
    cases v with
    | int i =>
      simp only [jvalMatches, decide_eq_true_eq] at h
      simp [rawOf, decodeRaw, decInt32_encInt64 h.1 h.2]
    | boolV b => simp [jvalMatches] at h
    | strV bs => simp [jvalMatches] at h
  | boolType =>
    cases v with
    | int i => simp [jvalMatches] at h
    | boolV b => cases b <;> simp [rawOf, decodeRaw]
    | strV bs => simp [jvalMatches] at h
  | strType =>
    cases v with
    | int i => simp [jvalMatches] at h
    | boolV b => simp [jvalMatches] at h
    | strV bs => simp [rawOf, decodeRaw]

theorem parseRecordsF_cons_eq (fuel : Nat) (bytes : List Nat) (h : bytes ≠ []) :
    parseRecordsF (fuel + 1) bytes =
      match parseVarint bytes with
      | none => none
      | some (tag, r1) =>
        if tag / 8 = 0 then none
        else if tag % 8 = 0 then
          match parseVarint r1 with
          | none => none
          | some (v, r2) =>
            match parseRecordsF fuel r2 with
            | none => none
            | some recs => some ((tag / 8, .vint v) :: recs)
        else if tag % 8 = 2 then
          match parseVarint r1 with
          | none => none
          | some (len, r2) =>
            if len ≤ r2.length then
              match parseRecordsF fuel (r2.drop len) with
              | none => none
              | some recs => some ((tag / 8, .vbytes (r2.take len)) :: recs)
            else none
        else if tag % 8 = 1 then
          if 8 ≤ r1.length then parseRecordsF fuel (r1.drop 8) else none
        else if tag % 8 = 5 then
          if 4 ≤ r1.length then parseRecordsF fuel (r1.drop 4) else none
        else none := by
  cases bytes with
  | nil => exact absurd rfl h
  | cons b bs => rfl

theorem tag_div (n w : Nat) (hw : w < 8) : (n * 8 + w) / 8 = n := by omega

theorem tag_mod (n w : Nat) (hw : w < 8) : (n * 8 + w) % 8 = w := by omega

theorem wireTypeOf_lt (ft : FieldType) : wireTypeOf ft < 8 := by
  cases ft <;> simp [wireTypeOf]

theorem tagOf_div (f : FieldDesc) : tagOf f / 8 = f.number :=
  tag_div _ _ (wireTypeOf_lt f.ftype)

theorem tagOf_mod (f : FieldDesc) : tagOf f % 8 = wireTypeOf f.ftype :=
  tag_mod _ _ (wireTypeOf_lt f.ftype)

/-- One set field parses back as one record, continuing with the remaining
bytes. -/
theorem parseRecordsF_field {fuel : Nat} {f : FieldDesc} {v : JVal}
    {tail : List Nat} {recs : List (Nat × RawVal)}
    (hmatch : jvalMatches f.ftype v = true) (hnum : 1 ≤ f.number)
    (hrec : parseRecordsF fuel tail = some recs) :
    parseRecordsF (fuel + 1) (varint (tagOf f) ++ (encodePayload f.ftype v ++ tail)) =
      some ((f.number, rawOf f.ftype v) :: recs) := by
  have hne : varint (tagOf f) ++ (encodePayload f.ftype v ++ tail) ≠ [] := by
    simp [varint_ne_nil (tagOf f)]
  rw [parseRecordsF_cons_eq fuel _ hne, parseVarint_varint]
  have hfnum0 : ¬ (f.number = 0) := by omega
  cases hft : f.ftype with
  | int32 =>
    cases v with
    | int i =>
      simp [hft, encodePayload, tagOf_div, tagOf_mod, wireTypeOf, hfnum0,
        parseVarint_varint, hrec, rawOf]
    | boolV b => rw [hft] at hmatch; simp [jvalMatches] at hmatch
    | strV bs => rw [hft] at hmatch; simp [jvalMatches] at hmatch
  | boolType =>
    cases v with
    | int i => rw [hft] at hmatch; simp [jvalMatches] at hmatch
    | boolV b =>
      simp [hft, encodePayload, tagOf_div, tagOf_mod, wireTypeOf, hfnum0,
        parseVarint_varint, hrec, rawOf]
    | strV bs => rw [hft] at hmatch; simp [jvalMatches] at hmatch
  | strType =>
    cases v with
    | int i => rw [hft] at hmatch; simp [jvalMatches] at hmatch
    | boolV b => rw [hft] at hmatch; simp [jvalMatches] at hmatch
    | strV bs =>
      have hlen : bs.length ≤ (bs ++ tail).length := by simp
      simp [hft, encodePayload, tagOf_div, tagOf_mod, wireTypeOf, hfnum0,
        List.append_assoc, parseVarint_varint, hlen, List.take_left,
        List.drop_left, hrec, rawOf]

/-- A serialized message parses back to exactly its non-default records. -/
theorem parseRecordsF_serialize : ∀ (msg : List (FieldDesc × JVal)) (fuel : Nat),
    (serializeMsg msg).length ≤ fuel →
    (∀ fv ∈ msg, 1 ≤ fv.1.number) →
    (∀ fv ∈ msg, jvalMatches fv.1.ftype fv.2 = true) →
    parseRecordsF fuel (serializeMsg msg) = some (recordsOf msg) := by
  intro msg
  induction msg with
  | nil =>
    intro fuel _ _ _
    cases fuel <;> rfl
  | cons fv rest ih =>
    obtain ⟨f, v⟩ := fv
    intro fuel hfuel hnum hmatch
    have hnum_f : 1 ≤ f.number := hnum (f, v) (by simp)
    have hmatch_f : jvalMatches f.ftype v = true := hmatch (f, v) (by simp)
    have hnum' : ∀ fv ∈ rest, 1 ≤ fv.1.number := fun fv h => hnum fv (by simp [h])
    have hmatch' : ∀ fv ∈ rest, jvalMatches fv.1.ftype fv.2 = true :=
      fun fv h => hmatch fv (by simp [h])
    by_cases hdef : v = defaultJVal f.ftype
    · simp only [serializeMsg, if_pos hdef, List.nil_append] at hfuel ⊢
      simp only [recordsOf, if_pos hdef, List.nil_append]
      exact ih fuel hfuel hnum' hmatch'
    · have hchunk : serializeMsg ((f, v) :: rest) =
          varint (tagOf f) ++ (encodePayload f.ftype v ++ serializeMsg rest) := by
        simp only [serializeMsg, if_neg hdef]
        simp [List.append_assoc]
      have hne : serializeMsg ((f, v) :: rest) ≠ [] := by
        rw [hchunk]
        simp [varint_ne_nil (tagOf f)]
      match fuel with
      | 0 =>
        exfalso
        exact hne (List.length_eq_zero.mp (Nat.le_zero.mp hfuel))
      | fuel + 1 =>
        have hrestlen : (serializeMsg rest).length ≤ fuel := by
          rw [hchunk] at hfuel
          have hvle : 1 ≤ (varint (tagOf f)).length := by
            cases hv : varint (tagOf f) with
            | nil => exact absurd hv (varint_ne_nil _)
            | cons a l => simp
          simp only [List.length_append] at hfuel
          omega
        rw [hchunk, parseRecordsF_field hmatch_f hnum_f
          (ih fuel hrestlen hnum' hmatch')]
        simp only [recordsOf, if_neg hdef]
        rfl

theorem lastRecord_none {num : Nat} : ∀ recs : List (Nat × RawVal),
    (∀ p ∈ recs, p.1 ≠ num) → lastRecord num recs = none := by
  intro recs h
  induction recs with
  | nil => rfl
  | cons p rest ih =>
    obtain ⟨n, r⟩ := p
    have hn : n ≠ num := h (n, r) (by simp)
    have hrec := ih (fun q hq => h q (by simp [hq]))
    simp [lastRecord, hrec, hn]

theorem mem_recordsOf {p : Nat × RawVal} : ∀ {msg : List (FieldDesc × JVal)},
    p ∈ recordsOf msg → ∃ fv ∈ msg, p.1 = fv.1.number := by
  intro msg
  induction msg with
  | nil =>
    intro h
    simp [recordsOf] at h
  | cons fv rest ih =>
    obtain ⟨f, v⟩ := fv
    intro h
    rw [recordsOf] at h
    rcases List.mem_append.mp h with h1 | h2
    · by_cases hdef : v = defaultJVal f.ftype
      · rw [if_pos hdef] at h1
        simp at h1
      · rw [if_neg hdef] at h1
        simp at h1
        exact ⟨(f, v), by simp, by simp [h1]⟩
    · obtain ⟨fv', hfv', hp⟩ := ih h2
      exact ⟨fv', by simp [hfv'], hp⟩

theorem lastRecord_recordsOf : ∀ (msg : List (FieldDesc × JVal)) (f : FieldDesc) (v : JVal),
    (f, v) ∈ msg →
    List.Pairwise (fun a b => a.1.number ≠ b.1.number) msg →
    lastRecord f.number (recordsOf msg) =
      (if v = defaultJVal f.ftype then none else some (rawOf f.ftype v)) := by
  intro msg
  induction msg with
  | nil =>
    intro f v h _
    simp at h
  | cons gw rest ih =>
    obtain ⟨g, w⟩ := gw
    intro f v hmem hpw
    rw [List.pairwise_cons] at hpw
    obtain ⟨hg, hrest⟩ := hpw
    rcases List.mem_cons.mp hmem with heq | hmem'
    · obtain ⟨rfl, rfl⟩ := Prod.mk.injEq .. ▸ heq
      have hnone : lastRecord f.number (recordsOf rest) = none := by
        apply lastRecord_none
        intro p hp
        obtain ⟨fv', hfv', hpnum⟩ := mem_recordsOf hp
        rw [hpnum]
        exact Ne.symm (hg fv' hfv')
      by_cases hdef : v = defaultJVal f.ftype
      · simp [recordsOf, if_pos hdef, hnone, hdef]
      · simp [recordsOf, if_neg hdef, lastRecord, hnone, hdef]
    · have hgf : g.number ≠ f.number := by
        have := hg (f, v) hmem'
        simpa using this
      have hih := ih f v hmem' hrest
      by_cases hdefw : w = defaultJVal g.ftype
      · rw [recordsOf, if_pos hdefw, List.nil_append]
        exact hih
      · rw [recordsOf, if_neg hdefw, List.singleton_append]
        by_cases hdef : v = defaultJVal f.ftype
        · simp [lastRecord, hih, hdef, hgf]
        · simp [lastRecord, hih, hdef]

theorem messageToDict_recordsOf (d : MsgDesc) (valOf : FieldDesc → JVal)
    (hwf : wfDesc d)
    (hmatch : ∀ f ∈ d, jvalMatches f.ftype (valOf f) = true) :
    messageToDict d (recordsOf (d.map (fun f => (f, valOf f)))) =
      d.map (fun f => (f.name, valOf f)) := by
  unfold messageToDict
  apply List.map_congr_left
  intro f hf
  have hpw : List.Pairwise (fun a b : FieldDesc × JVal => a.1.number ≠ b.1.number)
      (d.map (fun f => (f, valOf f))) := by
    refine List.Pairwise.map _ (fun a b h => ?_) hwf.1
    exact Nat.ne_of_lt h
  have hmem : (f, valOf f) ∈ d.map (fun g => (g, valOf g)) :=
    List.mem_map.mpr ⟨f, hf, rfl⟩
  rw [lastRecord_recordsOf _ f (valOf f) hmem hpw]
  by_cases hdef : valOf f = defaultJVal f.ftype
  · simp [hdef]
  · simp [hdef, decodeRaw_rawOf (hmatch f hf)]

theorem lookupKey_map_name {d : MsgDesc} (valOf : FieldDesc → JVal)
    (hnodup : (d.map FieldDesc.name).Nodup) {f : FieldDesc} (hf : f ∈ d) :
    lookupKey f.name (d.map (fun g => (g.name, valOf g))) = some (valOf f) := by
  induction d with
  | nil => simp at hf
  | cons g rest ih =>
    rw [List.map_cons, List.nodup_cons] at hnodup
    obtain ⟨hg_not, hrest⟩ := hnodup
    rcases List.mem_cons.mp hf with rfl | hf'
    · simp [lookupKey]
    · rw [List.map_cons, lookupKey]
      have hne : g.name ≠ f.name := by
        intro hc
        exact hg_not (hc ▸ List.mem_map.mpr ⟨f, hf', rfl⟩)
      rw [if_neg hne]
      exact ih hrest hf'

/-- A second load after a successful load serves the module from the cache
and leaves the state unchanged. -/
theorem loadProtoModule_idem (st : HandlerState) (env : String) {m : ProtoModule}
    (h : (loadProtoModule st env).1 = some m) :
    loadProtoModule (loadProtoModule st env).2 env =
      (some m, (loadProtoModule st env).2) := by
  unfold loadProtoModule at *
  cases hc : lookupKey env st.loadedModules with
  | some m0 =>
    rw [hc] at h
    simp only [Option.some.injEq] at h
    subst h
    simp [hc]
  | none =>
    rw [hc] at h
    cases hk : lookupKey env st.compiledPb2 with
    | none => rw [hk] at h; simp at h
    | some m0 =>
      rw [hk] at h
      simp only [Option.some.injEq] at h
      subst h
      simp [hc, hk, lookupKey_setKey_self]

/-- C1: codec round-trip: for an environment with a loadable binding, a
message type `T` it defines, and a value `v` conforming to `T`'s shape,
decoding the bytes produced by `json_to_protobuf` with `protobuf_to_json`
succeeds and returns `v` with every unset field filled by its default: the
result agrees with `v` on every key `v` sets and carries the declared
default for every other field. -/
theorem c1_codec_roundtrip (st : HandlerState) (env T : String) (m : ProtoModule)
    (d : MsgDesc) (v : JDict)
    (hload : (loadProtoModule st env).1 = some m)
    (hT : lookupKey T m.attrs = some (.msgClass d))
    (hwf : wfDesc d) (hconf : conforms d v) :
    ∃ bytes w,
      (json_to_protobuf st env T v).1 = some bytes ∧
      (protobuf_to_json (json_to_protobuf st env T v).2 env T bytes).1 = some w ∧
      w = d.map (fun f => (f.name, (lookupKey f.name v).getD (defaultJVal f.ftype))) ∧
      (∀ f ∈ d, lookupKey f.name w =
        some ((lookupKey f.name v).getD (defaultJVal f.ftype))) ∧
      (∀ f ∈ d, ∀ x, lookupKey f.name v = some x → lookupKey f.name w = some x) := by
  obtain ⟨hpw_lt, hnum1, hnodup⟩ := hwf
  have hcheck : parseDictCheck d v = true := parseDictCheck_of_conforms hnodup hconf.1
  have hvmatch : ∀ f ∈ d, jvalMatches f.ftype
      ((lookupKey f.name v).getD (defaultJVal f.ftype)) = true := by
    intro f hf
    cases hv : lookupKey f.name v with
    | none => simp [jvalMatches_default]
    | some x => simpa using conforms_lookup_matches hnodup hconf hf hv
  have hpd : parseDict d v =
      some (d.map (fun f => (f, (lookupKey f.name v).getD (defaultJVal f.ftype)))) := by
    rw [parseDict, if_pos hcheck]
  have hmsg_num : ∀ fv ∈ d.map (fun f =>
      (f, (lookupKey f.name v).getD (defaultJVal f.ftype))), 1 ≤ fv.1.number := by
    intro fv hfv
    obtain ⟨f, hf, rfl⟩ := List.mem_map.mp hfv
    exact hnum1 f hf
  have hmsg_match : ∀ fv ∈ d.map (fun f =>
      (f, (lookupKey f.name v).getD (defaultJVal f.ftype))),
      jvalMatches fv.1.ftype fv.2 = true := by
    intro fv hfv
    obtain ⟨f, hf, rfl⟩ := List.mem_map.mp hfv
    exact hvmatch f hf
  have hpr : parseRecords (serializeMsg (d.map (fun f =>
      (f, (lookupKey f.name v).getD (defaultJVal f.ftype))))) =
      some (recordsOf (d.map (fun f =>
        (f, (lookupKey f.name v).getD (defaultJVal f.ftype))))) :=
    parseRecordsF_serialize _ _ le_rfl hmsg_num hmsg_match
  have hmtd := messageToDict_recordsOf d
    (fun f => (lookupKey f.name v).getD (defaultJVal f.ftype))
    ⟨hpw_lt, hnum1, hnodup⟩ hvmatch
  refine ⟨serializeMsg (d.map (fun f =>
      (f, (lookupKey f.name v).getD (defaultJVal f.ftype)))),
    d.map (fun f => (f.name, (lookupKey f.name v).getD (defaultJVal f.ftype))),
    ?_, ?_, rfl, ?_, ?_⟩
  · unfold json_to_protobuf jsonToProtobufE
    cases hL : loadProtoModule st env with
    | mk o st1 =>
      rw [hL] at hload
      simp only at hload
      subst hload
      simp [hT, hpd]
  · have hst2 : (json_to_protobuf st env T v).2 = (loadProtoModule st env).2 := by
      unfold json_to_protobuf jsonToProtobufE
      cases hL : loadProtoModule st env with
      | mk o st1 =>
        rw [hL] at hload
        simp only at hload
        subst hload
        simp [hT, hpd]
    rw [hst2]
    unfold protobuf_to_json protobufToJsonE
    rw [loadProtoModule_idem st env hload]
    simp only [hT, hpr, hmtd]
  · intro f hf
    exact lookupKey_map_name _ hnodup hf
  · intro f hf x hx
    have h0 := lookupKey_map_name
      (fun g => (lookupKey g.name v).getD (defaultJVal g.ftype)) hnodup hf
    rw [h0]
    simp [hx]

theorem c1_codec_roundtrip_witness :
    ∃ bytes w,
      (json_to_protobuf ⟨[], [("e1", ⟨[("Ping", .msgClass [⟨"id", 1, .int32⟩])]⟩)], [], []⟩
        "e1" "Ping" [("id", .int 7)]).1 = some bytes ∧
      (protobuf_to_json
        (json_to_protobuf ⟨[], [("e1", ⟨[("Ping", .msgClass [⟨"id", 1, .int32⟩])]⟩)], [], []⟩
          "e1" "Ping" [("id", .int 7)]).2 "e1" "Ping" bytes).1 = some w ∧
      w = ([⟨"id", 1, .int32⟩] : MsgDesc).map (fun f =>
        (f.name, (lookupKey f.name [("id", JVal.int 7)]).getD (defaultJVal f.ftype))) ∧
      (∀ f ∈ ([⟨"id", 1, .int32⟩] : MsgDesc), lookupKey f.name w =
        some ((lookupKey f.name [("id", JVal.int 7)]).getD (defaultJVal f.ftype))) ∧
      (∀ f ∈ ([⟨"id", 1, .int32⟩] : MsgDesc), ∀ x,
        lookupKey f.name [("id", JVal.int 7)] = some x → lookupKey f.name w = some x) :=
  c1_codec_roundtrip ⟨[], [("e1", ⟨[("Ping", .msgClass [⟨"id", 1, .int32⟩])]⟩)], [], []⟩
    "e1" "Ping" ⟨[("Ping", .msgClass [⟨"id", 1, .int32⟩])]⟩ [⟨"id", 1, .int32⟩]
    [("id", .int 7)] (by decide) (by decide) (by decide) (by decide)

/-! C5: behaviour of `json_to_protobuf` on values with undeclared keys. -/

theorem parseDictCheck_false_of_extra {d : MsgDesc} : ∀ {data : JDict},
    (∃ kv ∈ data, ∀ f ∈ d, f.name ≠ kv.1) → parseDictCheck d data = false := by
  intro data
  induction data with
  | nil =>
    intro h
    obtain ⟨kv, hkv, -⟩ := h
    simp at hkv
  | cons kv0 rest ih =>
    obtain ⟨k, v⟩ := kv0
    intro h
    obtain ⟨kv, hkv, hbad⟩ := h
    rw [parseDictCheck]
    rcases List.mem_cons.mp hkv with rfl | hkv'
    · cases hfind : d.find? (fun f => f.name == k) with
      | none => rfl
      | some f =>
        exfalso
        have hf_mem : f ∈ d := List.mem_of_find?_eq_some hfind
        have hf_name := List.find?_some hfind
        simp at hf_name
        exact hbad f hf_mem hf_name
    · cases hfind : d.find? (fun f => f.name == k) with
      | none => rfl
      | some f =>
        simp [ih ⟨kv, hkv', hbad⟩]

/-- C5 counterexample: with message type `Ping{id: int32}` loaded for
environment `e1`, encoding the value `{"id": 7, "extra": 1}` fails —
`ParseDict` is invoked without `ignore_unknown_fields=True` and raises on
the unknown key, so `json_to_protobuf` returns `None` — while the same
value with the extra key removed encodes to the bytes `[8, 7]`.  This
refutes the claim that unknown extra keys are ignored and produce the same
bytes. -/
theorem c5_counterexample :
    (json_to_protobuf ⟨[], [], [], [("e1", ⟨[("Ping", .msgClass [⟨"id", 1, .int32⟩])]⟩)]⟩
      "e1" "Ping" [("id", .int 7), ("extra", .int 1)]).1 = none ∧
    (json_to_protobuf ⟨[], [], [], [("e1", ⟨[("Ping", .msgClass [⟨"id", 1, .int32⟩])]⟩)]⟩
      "e1" "Ping" [("id", .int 7)]).1 = some [8, 7] := by
  exact ⟨by decide, by decide⟩

/-- C5 amended: unknown extra keys in the value are rejected, not ignored:
whenever the value contains any key that names no declared field of `T`,
`json_to_protobuf` returns `None`; with only declared, type-conforming
keys it succeeds and serializes the declared fields. -/
theorem c5_extra_keys_rejected (st : HandlerState) (env name : String)
    (m : ProtoModule) (d : MsgDesc) (data : JDict)
    (hload : (loadProtoModule st env).1 = some m)
    (hname : lookupKey name m.attrs = some (.msgClass d)) :
    ((∃ kv ∈ data, ∀ f ∈ d, f.name ≠ kv.1) →
      (json_to_protobuf st env name data).1 = none) ∧
    (wfDesc d → conforms d data →
      (json_to_protobuf st env name data).1 =
        some (serializeMsg (d.map (fun f =>
          (f, (lookupKey f.name data).getD (defaultJVal f.ftype)))))) := by
  constructor
  · intro hbad
    unfold json_to_protobuf jsonToProtobufE
    cases hL : loadProtoModule st env with
    | mk o st1 =>
      rw [hL] at hload
      simp only at hload
      subst hload
      have hpd : parseDict d data = none := by
        simp [parseDict, parseDictCheck_false_of_extra hbad]
      simp [hname, hpd]
  · intro hwf hconf
    obtain ⟨hpw, hnum1, hnodup⟩ := hwf
    have hcheck := parseDictCheck_of_conforms hnodup hconf.1
    unfold json_to_protobuf jsonToProtobufE
    cases hL : loadProtoModule st env with
    | mk o st1 =>
      rw [hL] at hload
      simp only at hload
      subst hload
      have hpd : parseDict d data =
          some (d.map (fun f => (f, (lookupKey f.name data).getD (defaultJVal f.ftype)))) := by
        rw [parseDict, if_pos hcheck]
      simp [hname, hpd]

theorem c5_extra_keys_rejected_witness :
    (json_to_protobuf ⟨[], [], [], [("e1", ⟨[("Ping", .msgClass [⟨"id", 1, .int32⟩])]⟩)]⟩
      "e1" "Ping" [("id", .int 7), ("extra", .int 1)]).1 = none ∧
    (json_to_protobuf ⟨[], [], [], [("e1", ⟨[("Ping", .msgClass [⟨"id", 1, .int32⟩])]⟩)]⟩
      "e1" "Ping" [("id", .int 7)]).1 =
      some (serializeMsg (([⟨"id", 1, .int32⟩] : MsgDesc).map (fun f =>
        (f, (lookupKey f.name [("id", JVal.int 7)]).getD (defaultJVal f.ftype))))) :=
  ⟨(c5_extra_keys_rejected ⟨[], [], [], [("e1", ⟨[("Ping", .msgClass [⟨"id", 1, .int32⟩])]⟩)]⟩
      "e1" "Ping" ⟨[("Ping", .msgClass [⟨"id", 1, .int32⟩])]⟩ [⟨"id", 1, .int32⟩]
      [("id", .int 7), ("extra", .int 1)] (by decide) (by decide)).1
    (by decide),
   (c5_extra_keys_rejected ⟨[], [], [], [("e1", ⟨[("Ping", .msgClass [⟨"id", 1, .int32⟩])]⟩)]⟩
      "e1" "Ping" ⟨[("Ping", .msgClass [⟨"id", 1, .int32⟩])]⟩ [⟨"id", 1, .int32⟩]
      [("id", .int 7)] (by decide) (by decide)).2
    (by decide) (by decide)⟩

/-- C3: sanitizer idempotence: both identifier-sanitizing rewrites —
`fix_proto.fix_proto_enums` and `fix_proto_v2.fix_enums_thoroughly` —
satisfy `sanitize (sanitize x) = sanitize x` on every input schema text
`x`; in particular, applying either rewrite to already-rewritten text
returns it unchanged. -/
theorem c3_sanitizer_idempotence (x : List Char) :
    fixProtoEnums (fixProtoEnums x) = fixProtoEnums x ∧
    fixEnumsThoroughly (fixEnumsThoroughly x) = fixEnumsThoroughly x :=
  ⟨fixProtoEnums_idem x, fixEnumsThoroughly_idem x⟩

/-- C9: collision resolution: on schema text declaring the colliding pair
`IAB21` (two-digit code) and `IAB21_1` (same code with a nested sub-index),
each sanitizer rewrite yields two distinct identifiers, and each rewritten
identifier keeps the numeric value (196 resp. 197) assigned to it in the
original text: `fix_enums_thoroughly` renames only `IAB21_1` to
`IAB_21_SUB_1 = 197`, and `fix_proto_enums` renames only `IAB21` to
`IAB_CAT_21 = 196`. -/
theorem c9_collision_resolution :
    fixEnumsThoroughly ("IAB21 = 196;\nIAB21_1 = 197;\n".toList) =
      ("IAB21 = 196;\nIAB_21_SUB_1 = 197;\n".toList) ∧
    fixProtoEnums ("IAB21 = 196;\nIAB21_1 = 197;\n".toList) =
      ("IAB_CAT_21 = 196;\nIAB21_1 = 197;\n".toList) ∧
    "IAB21".toList ≠ "IAB_21_SUB_1".toList ∧
    "IAB_CAT_21".toList ≠ "IAB21_1".toList :=
  ⟨by decide, by decide, by decide, by decide⟩

end TestForge
